import Mathlib

set_option maxRecDepth 8000

/-!
Verification development for the two docx command-line tools of this
repository: the table-header recolorer (docx-table-title.py) and the
template applier (top-page.py).  Document text is modelled as List Char
and the XML element trees are modelled as Lean structures carrying the
fields the tools read and write.
-/

namespace Tool4Word

/-- Python substring test (pat in s) on character lists. -/
def containsSeq (pat : List Char) : List Char → Bool
  | [] => pat.isEmpty
  | c :: rest => pat.isPrefixOf (c :: rest) || containsSeq pat rest

/-- Python str.replace on character lists, written with an explicit
fuel so that it computes by structural recursion; every step consumes
at least one character, so fuel equal to the length of the text always
suffices (tp_replaceAllAux_congr below proves fuel irrelevance). -/
def replaceAllAux (p0 : Char) (ps sub : List Char) : Nat → List Char → List Char
  | 0, s => s
  | _ + 1, [] => []
  | fuel + 1, c :: rest =>
    if c == p0 && ps.isPrefixOf rest then
      sub ++ replaceAllAux p0 ps sub fuel (rest.drop ps.length)
    else
      c :: replaceAllAux p0 ps sub fuel rest

/-- Python str.replace on character lists.  The pattern is p0 :: ps
(every pattern used by the tools starts with a dollar sign, hence is
nonempty); occurrences are replaced left to right, non-overlapping. -/
def replaceAll (p0 : Char) (ps sub : List Char) (s : List Char) : List Char :=
  replaceAllAux p0 ps sub s.length s

/-! ## Model of docx-table-title.py (the header recolorer)

Cells carry an optional tcPr child list, runs and paragraphs carry an
optional rPr child list; the setters of the source remove the existing
w:shd / w:color children and append a fresh one, which is modelled
literally on those lists. -/

/-- A child of a w:tcPr element: either a w:shd element (attributes
w:val, w:color, w:fill) or some other element, identified by its tag. -/
inductive TcPrItem where
  | shd (val color fill : String)
  | other (tag : String)
  deriving DecidableEq

/-- A child of a w:rPr element: either a w:color element (attribute
w:val) or some other element, identified by its tag. -/
inductive RPrItem where
  | color (val : String)
  | other (tag : String)
  deriving DecidableEq

/-- A w:r run as the recolorer sees it: only its optional rPr matters. -/
structure DRun where
  rPr : Option (List RPrItem)
  deriving DecidableEq

/-- A w:pPr paragraph-properties element: only its optional rPr matters. -/
structure DPPr where
  rPr : Option (List RPrItem)
  deriving DecidableEq

/-- A w:p paragraph inside a table cell. -/
structure DPara where
  pPr : Option DPPr
  runs : List DRun
  deriving DecidableEq

/-- A w:tc table cell: optional tcPr and the cell paragraphs. -/
structure DCell where
  tcPr : Option (List TcPrItem)
  paras : List DPara
  deriving DecidableEq

/-- A w:tr table row. -/
structure DRow where
  cells : List DCell
  deriving DecidableEq

/-- A w:tbl table. -/
structure DTable where
  rows : List DRow
  deriving DecidableEq

/-- The document as the recolorer sees it: its list of tables. -/
structure DDoc where
  tables : List DTable
  deriving DecidableEq

/-- Is this tcPr child a w:shd element? -/
def isShd : TcPrItem → Bool
  | .shd .. => true
  | _ => false

/-- Is this rPr child a w:color element? -/
def isColorItem : RPrItem → Bool
  | .color _ => true
  | _ => false

/-- set_cell_shading: get or add tcPr, remove the existing w:shd
children, append a new w:shd with val clear, color auto and the given
fill. -/
def setCellShading (c : DCell) (color : String) : DCell :=
  { c with
    tcPr := some (((c.tcPr.getD []).filter fun it => !isShd it)
                    ++ [.shd "clear" "auto" color]) }

/-- set_run_color: get or add rPr, remove the existing w:color children,
append a new w:color with the given val. -/
def setRunColor (r : DRun) (color : String) : DRun :=
  { rPr := some (((r.rPr.getD []).filter fun it => !isColorItem it)
                   ++ [.color color]) }

/-- set_paragraph_run_color: recolor every run of the paragraph, then
get or add pPr, get or add its rPr, remove the existing w:color children
of that rPr and append a new w:color with the given val. -/
def setParagraphRunColor (p : DPara) (color : String) : DPara :=
  { pPr := some ⟨some ((((p.pPr.getD ⟨none⟩).rPr.getD []).filter fun it => !isColorItem it)
                         ++ [.color color])⟩,
    runs := p.runs.map (setRunColor · color) }

/-- The body of the per-cell work of process_table_headers: background
shading first, then every paragraph of the cell. -/
def recolorCell (c : DCell) (bg txt : String) : DCell :=
  let c1 := setCellShading c bg
  { c1 with paras := c1.paras.map (setParagraphRunColor · txt) }

/-- Row 0 treatment of process_table_headers: every cell recolored. -/
def recolorHeaderRow (r : DRow) (bg txt : String) : DRow :=
  { cells := r.cells.map (recolorCell · bg txt) }

/-- process_table_headers: for every table with at least one row,
recolor row 0; tables with zero rows are skipped. -/
def processTableHeaders (doc : DDoc) (bg txt : String) : DDoc :=
  { tables := doc.tables.map fun t =>
      match t.rows with
      | [] => t
      | r0 :: rest => { rows := recolorHeaderRow r0 bg txt :: rest } }

/-- The fixed header background fill from main (deep blue). -/
def headerBgColor : String := "1F4E79"

/-- The fixed header text color from main (white). -/
def textColorWhite : String := "FFFFFF"

/-- The w:fill attribute of a tcPr child, when it is a w:shd. -/
def shdFill : TcPrItem → Option String
  | .shd _ _ fill => some fill
  | _ => none

/-- All shading fills present on a cell, in child order. -/
def cellFills (c : DCell) : List String := (c.tcPr.getD []).filterMap shdFill

/-- The w:val attribute of an rPr child, when it is a w:color. -/
def colorVal : RPrItem → Option String
  | .color v => some v
  | _ => none

/-- All colors present on a run, in child order. -/
def runColors (r : DRun) : List String := (r.rPr.getD []).filterMap colorVal

/-- All default run colors recorded on the paragraph mark (pPr/rPr). -/
def paraDefaultColors (p : DPara) : List String :=
  ((p.pPr.getD ⟨none⟩).rPr.getD []).filterMap colorVal

/-! ## Model of top-page.py (the template applier)

Paragraph text lives in w:t elements whose content is an optional
character list (lxml text may be absent); runs also hold tabs, breaks
and the field-code elements the footer builder creates. -/

/-- A child of a w:r run element. -/
inductive RunItem where
  | text (content : Option (List Char)) (preserveSpace : Bool)
  | tab
  | br (brType : Option (List Char))
  | fldChar (fldCharType : List Char)
  | instrText (content : List Char)
  deriving DecidableEq

/-- A w:r run element. -/
structure Run where
  items : List RunItem
  deriving DecidableEq

/-- A w:p paragraph element: its justification (w:pPr/w:jc) and runs. -/
structure Paragraph where
  jc : Option (List Char)
  runs : List Run
  deriving DecidableEq

/-- The nonempty text of a w:t child, when present (the Python code
tests t.text for truthiness, so absent and empty texts are skipped). -/
def truthyText : RunItem → Option (List Char)
  | .text (some s) _ => if s.isEmpty then none else some s
  | _ => none

/-- Concatenated nonempty w:t texts of one run, in child order. -/
def runText (r : Run) : List Char := (r.items.filterMap truthyText).flatten

/-- Concatenated nonempty w:t texts of a paragraph, in run order. -/
def fullText (p : Paragraph) : List Char := (p.runs.map runText).flatten

/-- Does the text contain a token of a configured variable? -/
def hasVariable (vars : List (List Char × List Char)) (s : List Char) : Bool :=
  vars.any fun nv => containsSeq ('$' :: nv.1) s

/-- Replace every token of every configured variable, in configuration
order, exactly as the Python loop of str.replace calls does. -/
def substAll (vars : List (List Char × List Char)) (s : List Char) : List Char :=
  vars.foldl (fun acc nv => replaceAll '$' nv.1 nv.2 acc) s

/-- Rewriting pass of _replace_variables_in_element inside one run: the
counter k numbers the nonempty text fragments seen so far; fragment 0
receives the replaced text (and xml:space preserve), later nonempty
fragments are blanked, all other children are untouched. -/
def rewriteRunItems (newText : List Char) : Nat → List RunItem → List RunItem × Nat
  | k, [] => ([], k)
  | k, .text (some s) sp :: rest =>
    if s.isEmpty then
      let (r, k2) := rewriteRunItems newText k rest
      (.text (some s) sp :: r, k2)
    else
      let repl : RunItem := if k == 0 then .text (some newText) true else .text (some []) sp
      let (r, k2) := rewriteRunItems newText (k + 1) rest
      (repl :: r, k2)
  | k, it :: rest =>
    let (r, k2) := rewriteRunItems newText k rest
    (it :: r, k2)

/-- The rewriting pass threaded through all runs of a paragraph. -/
def rewriteRuns (newText : List Char) : Nat → List Run → List Run × Nat
  | k, [] => ([], k)
  | k, r :: rest =>
    let (items2, k2) := rewriteRunItems newText k r.items
    let (rs, k3) := rewriteRuns newText k2 rest
    (⟨items2⟩ :: rs, k3)

/-- _replace_variables_in_element on one paragraph: skip paragraphs
without runs, skip paragraphs whose concatenated text holds no token of
a configured variable, otherwise substitute over the concatenation and
collapse the result into the first nonempty text fragment. -/
def substParagraph (vars : List (List Char × List Char)) (p : Paragraph) : Paragraph :=
  if p.runs.isEmpty then p
  else if hasVariable vars (fullText p) then
    { p with runs := (rewriteRuns (substAll vars (fullText p)) 0 p.runs).1 }
  else p

/-- Character list of a string literal. -/
def lit (s : String) : List Char := s.toList

/-- lxml text serialization: ampersands and angle brackets escaped. -/
def escapeText : List Char → List Char
  | [] => []
  | '&' :: r => lit "&amp;" ++ escapeText r
  | '<' :: r => lit "&lt;" ++ escapeText r
  | '>' :: r => lit "&gt;" ++ escapeText r
  | c :: r => c :: escapeText r

/-- lxml attribute serialization: also escapes double quotes. -/
def escapeAttr : List Char → List Char
  | [] => []
  | '&' :: r => lit "&amp;" ++ escapeAttr r
  | '<' :: r => lit "&lt;" ++ escapeAttr r
  | '>' :: r => lit "&gt;" ++ escapeAttr r
  | '"' :: r => lit "&quot;" ++ escapeAttr r
  | c :: r => c :: escapeAttr r

/-- Serialized form of one run child, as etree.tostring would print it. -/
def xmlOfItem : RunItem → List Char
  | .text none _ => lit "<w:t/>"
  | .text (some s) false => lit "<w:t>" ++ escapeText s ++ lit "</w:t>"
  | .text (some s) true => lit "<w:t xml:space=\"preserve\">" ++ escapeText s ++ lit "</w:t>"
  | .tab => lit "<w:tab/>"
  | .br none => lit "<w:br/>"
  | .br (some ty) => lit "<w:br w:type=\"" ++ escapeAttr ty ++ lit "\"/>"
  | .fldChar ty => lit "<w:fldChar w:fldCharType=\"" ++ escapeAttr ty ++ lit "\"/>"
  | .instrText s => lit "<w:instrText xml:space=\"preserve\">" ++ escapeText s
      ++ lit "</w:instrText>"

/-- Serialized form of a run. -/
def xmlOfRun (r : Run) : List Char :=
  lit "<w:r>" ++ (r.items.map xmlOfItem).flatten ++ lit "</w:r>"

/-- Serialized form of a paragraph. -/
def xmlOfParagraph (p : Paragraph) : List Char :=
  lit "<w:p>"
    ++ (match p.jc with
        | none => []
        | some v => lit "<w:pPr><w:jc w:val=\"" ++ escapeAttr v ++ lit "\"/></w:pPr>")
    ++ (p.runs.map xmlOfRun).flatten ++ lit "</w:p>"

/-- The page-break test of _get_cover_page_elements: the serialized
paragraph must contain both substrings w:br and w:type=page-in-quotes. -/
def pageBreakCheck (p : Paragraph) : Bool :=
  containsSeq (lit "w:br") (xmlOfParagraph p)
    && containsSeq (lit "w:type=\"page\"") (xmlOfParagraph p)

/-- A w:gridCol element and its optional width attribute (in twips). -/
structure GridCol where
  w : Option Nat
  deriving DecidableEq

/-- A w:tblGrid element. -/
structure TblGrid where
  cols : List GridCol
  deriving DecidableEq

/-- A w:tblPr element: the w:type attribute of its w:tblLayout child
and the (width, type) attributes of its w:tblW child. -/
structure TblPr where
  layoutType : Option String
  tblW : Option (Nat × String)
  deriving DecidableEq

/-- A w:tc table cell: the (width, type) of its tcPr/tcW and its
paragraphs. -/
structure TCell where
  tcW : Option (Nat × String)
  paras : List Paragraph
  deriving DecidableEq

/-- A w:tr table row. -/
structure TRow where
  cells : List TCell
  deriving DecidableEq

/-- A w:tbl table in the template-applier model. -/
structure Tbl where
  tblPr : Option TblPr
  grid : Option TblGrid
  rows : List TRow
  deriving DecidableEq

/-- A top-level body element. -/
inductive BodyElem where
  | p (para : Paragraph)
  | tbl (t : Tbl)
  | sectPr
  | other
  deriving DecidableEq

/-- _get_cover_page_elements: scan the body in order; a paragraph whose
serialization passes the page-break test is included and ends the scan,
a body-level sectPr ends the scan before itself, everything else is
included. -/
def getCoverPageElements : List BodyElem → List BodyElem
  | [] => []
  | e :: rest =>
    match e with
    | .p para => if pageBreakCheck para then [e] else e :: getCoverPageElements rest
    | .tbl _ => e :: getCoverPageElements rest
    | .sectPr => []
    | .other => e :: getCoverPageElements rest

/-- Written from the claim wording of C2: the count of leading body
elements forming the cover; a body-level sectPr stops the scan before
itself, the first paragraph containing a page-break instruction (as the
source tests it, on the serialized form) stops it after itself, and the
whole body is taken otherwise. -/
def coverSpecLen : List BodyElem → Nat
  | [] => 0
  | .sectPr :: _ => 0
  | .p para :: rest => if pageBreakCheck para then 1 else coverSpecLen rest + 1
  | _ :: rest => coverSpecLen rest + 1

/-- int(mm * 56.7) of the source, computed exactly; at the only two
arguments the code uses (45 and 135) the exact value and the double
value truncate to the same integers, 2551 and 7654. -/
def mmToTwips (mm : Nat) : Nat := mm * 567 / 10

/-- _set_cell_width: get or add tcPr and tcW, then set width and type. -/
def setCellWidthT (tc : TCell) (w : Nat) : TCell :=
  { tc with tcW := some (w, "dxa") }

/-- The row part of _set_table_column_widths: cell 0 gets the first
width and cell 1 the second, when they exist; later cells are kept. -/
def setRowCellWidths (cells : List TCell) (c1 c2 : Nat) : List TCell :=
  match cells with
  | [] => []
  | [a] => [setCellWidthT a c1]
  | a :: b :: rest => setCellWidthT a c1 :: setCellWidthT b c2 :: rest

/-- The grid part of _set_table_column_widths: gridCol 0 and 1 get the
two widths, when they exist; later columns are kept. -/
def setGridColWidths (cols : List GridCol) (c1 c2 : Nat) : List GridCol :=
  match cols with
  | [] => []
  | [_] => [⟨some c1⟩]
  | _ :: _ :: rest => ⟨some c1⟩ :: ⟨some c2⟩ :: rest

/-- _set_table_column_widths: when a tblPr exists, fix the layout and
the total width; set the first two cell widths of every row and the
first two grid column widths, when a grid exists. -/
def setTableColumnWidths (t : Tbl) (col1mm col2mm : Nat) : Tbl :=
  let c1 := mmToTwips col1mm
  let c2 := mmToTwips col2mm
  let tot := c1 + c2
  { tblPr :=
      match t.tblPr with
      | none => none
      | some pr => some { pr with layoutType := some "fixed", tblW := some (tot, "dxa") },
    grid :=
      match t.grid with
      | none => none
      | some g => some ⟨setGridColWidths g.cols c1 c2⟩,
    rows := t.rows.map fun r => ⟨setRowCellWidths r.cells c1 c2⟩ }

/-- Variable substitution over every paragraph of a table (element.iter
visits the paragraphs inside the cells). -/
def substTbl (vars : List (List Char × List Char)) (t : Tbl) : Tbl :=
  { t with rows := t.rows.map fun r =>
      ⟨r.cells.map fun c => { c with paras := c.paras.map (substParagraph vars) }⟩ }

/-- Variable substitution over one body element. -/
def substBodyElem (vars : List (List Char × List Char)) : BodyElem → BodyElem
  | .p para => .p (substParagraph vars para)
  | .tbl t => .tbl (substTbl vars t)
  | e => e

/-- _replace_variables_in_element over a whole region. -/
def substElements (vars : List (List Char × List Char)) (es : List BodyElem) : List BodyElem :=
  es.map (substBodyElem vars)

/-- The fixed label string of the tab-removal fix. -/
def labelHanbaimei : List Char := ['販', '売', '名']

/-- Does some single text fragment of this run contain the label? -/
def runHasLabel (r : Run) : Bool :=
  r.items.any fun it =>
    match it with
    | .text (some s) _ => !s.isEmpty && containsSeq labelHanbaimei s
    | _ => false

/-- Is this run child a w:tab element? -/
def isTabItem : RunItem → Bool
  | .tab => true
  | _ => false

/-- Delete every w:tab child of the run. -/
def removeTabsFromRun (r : Run) : Run := ⟨r.items.filter fun it => !isTabItem it⟩

/-- Net effect of the in-place loop of the tab-removal fix: a run loses
its tabs when it holds the label in a single text fragment, or when the
next run does (that next run removes the tabs of its predecessor). -/
def fixRuns : List Run → List Run
  | [] => []
  | [r] => [if runHasLabel r then removeTabsFromRun r else r]
  | a :: b :: rest =>
    (if runHasLabel a || runHasLabel b then removeTabsFromRun a else a) :: fixRuns (b :: rest)

/-- The tab-removal fix on one paragraph: paragraphs without runs or
whose concatenated text lacks the label are untouched. -/
def removeTabBeforeLabel (p : Paragraph) : Paragraph :=
  if p.runs.isEmpty then p
  else if containsSeq labelHanbaimei (fullText p) then { p with runs := fixRuns p.runs }
  else p

/-- The tab-removal fix over every paragraph of a table. -/
def removeTabTbl (t : Tbl) : Tbl :=
  { t with rows := t.rows.map fun r =>
      ⟨r.cells.map fun c => { c with paras := c.paras.map removeTabBeforeLabel }⟩ }

/-- The tab-removal fix over a whole region. -/
def removeTabElements (es : List BodyElem) : List BodyElem :=
  es.map fun e =>
    match e with
    | .p para => .p (removeTabBeforeLabel para)
    | .tbl t => .tbl (removeTabTbl t)
    | e2 => e2

/-- A w:pgNumType element: its w:fmt and w:start attributes. -/
structure PgNumType where
  fmt : Option String
  start : Option String
  deriving DecidableEq

/-- A document section: the different-first-page flag, the four
header and footer element containers and the page-number type. -/
structure Sect where
  differentFirstPage : Bool
  firstPageHeader : List BodyElem
  header : List BodyElem
  firstPageFooter : List BodyElem
  footer : List BodyElem
  pgNumType : Option PgNumType
  deriving DecidableEq

/-- A blank section, used only as the default of list lookups. -/
def emptySect : Sect := ⟨false, [], [], [], [], none⟩

/-- _copy_header_element: clear the target header, append deep copies
of the source children, substitute variables in the copy, then apply
the tab-removal fix. -/
def copyHeaderContent (vars : List (List Char × List Char)) (src : List BodyElem) :
    List BodyElem :=
  removeTabElements (substElements vars src)

/-- The per-section work of _copy_headers: enable different-first-page
and refill both headers from the paired template section. -/
def applyHeaderCopy (vars : List (List Char × List Char)) (tmpl : Sect) (s : Sect) : Sect :=
  { s with
    differentFirstPage := true,
    firstPageHeader := copyHeaderContent vars tmpl.firstPageHeader,
    header := copyHeaderContent vars tmpl.header }

/-- _copy_headers: enumerate the target sections, pairing section i with
template section min(i, last template index). -/
def copyHeadersAux (vars : List (List Char × List Char)) (tpl : List Sect) :
    Nat → List Sect → List Sect
  | _, [] => []
  | i, s :: rest =>
    applyHeaderCopy vars (tpl.getD (min i (tpl.length - 1)) emptySect) s
      :: copyHeadersAux vars tpl (i + 1) rest

/-- _copy_headers over the whole target section list. -/
def copyHeaders (vars : List (List Char × List Char)) (tpl tgt : List Sect) : List Sect :=
  copyHeadersAux vars tpl 0 tgt

/-- The paragraph built by _create_page_field_footer: centered, with the
five runs of the PAGE field in order. -/
def pageFieldParagraph : Paragraph :=
  { jc := some (lit "center"),
    runs := [⟨[.fldChar (lit "begin")]⟩,
             ⟨[.instrText (lit " PAGE ")]⟩,
             ⟨[.fldChar (lit "separate")]⟩,
             ⟨[.text (some (lit "1")) false]⟩,
             ⟨[.fldChar (lit "end")]⟩] }

/-- _set_page_number_format: find or create pgNumType, then set its
format to numberInDash and its start value to 0. -/
def setPageNumberFormat (s : Sect) : Sect :=
  { s with
    pgNumType :=
      match s.pgNumType with
      | none => some ⟨some "numberInDash", some "0"⟩
      | some pg => some { pg with fmt := some "numberInDash", start := some "0" } }

/-- The per-section work of _copy_footers: enable different-first-page,
set the page-number format, blank the first-page footer and rebuild the
regular footer as the single PAGE-field paragraph. -/
def copyFooterSect (s : Sect) : Sect :=
  let s1 := setPageNumberFormat { s with differentFirstPage := true }
  { s1 with firstPageFooter := [], footer := [.p pageFieldParagraph] }

/-- _copy_footers over the whole target section list. -/
def copyFooters (secs : List Sect) : List Sect := secs.map copyFooterSect

/-- Python list.insert / lxml insert: positions beyond the end append. -/
def insertAt (l : List BodyElem) (i : Nat) (a : BodyElem) : List BodyElem :=
  l.take i ++ a :: l.drop i

/-- The first-table width fix of the cover splice loop. -/
def widthFixStep (e : BodyElem) (firstTable : Bool) : BodyElem × Bool :=
  match e, firstTable with
  | .tbl t, true => (.tbl (setTableColumnWidths t 45 135), false)
  | e2, ft => (e2, ft)

/-- The insertion loop of _replace_cover_page: element i of the template
cover is deep-copied, substituted, width-fixed when it is the first
table, and inserted at position pos + i. -/
def coverLoop (vars : List (List Char × List Char)) :
    Bool → Nat → List BodyElem → List BodyElem → List BodyElem
  | _, _, [], body => body
  | ft, pos, e :: es, body =>
    let e1 := substBodyElem vars e
    let (e2, ft2) := widthFixStep e1 ft
    coverLoop vars ft2 (pos + 1) es (insertAt body pos e2)

/-- _replace_cover_page: compute both covers, record the index of the
first target cover element (0 when there is no cover), remove the
target cover elements, then splice the transformed template cover in. -/
def replaceCoverPage (vars : List (List Char × List Char)) (tmplBody tgtBody : List BodyElem) :
    List BodyElem :=
  let tmplCover := getCoverPageElements tmplBody
  let tgtCover := getCoverPageElements tgtBody
  let pos :=
    match tgtCover with
    | [] => 0
    | e :: _ => tgtBody.findIdx (fun x => x == e)
  let removed := tgtCover.foldl (fun b e => b.erase e) tgtBody
  coverLoop vars true pos tmplCover removed

/-- The per-element transformation of the cover splice, as a plain map:
variable substitution, plus the fixed column widths on the first table
among the copied elements. -/
def transformCover (vars : List (List Char × List Char)) :
    Bool → List BodyElem → List BodyElem
  | _, [] => []
  | ft, e :: es =>
    let e1 := substBodyElem vars e
    let (e2, ft2) := widthFixStep e1 ft
    e2 :: transformCover vars ft2 es

/-- Text with no dollar sign at all. -/
def noDollar (s : List Char) : Bool := s.all fun c => c != '$'

/-- Every dollar sign of the text begins an occurrence of a configured
token: the text splits into ordinary characters and token-led segments. -/
inductive GoodText (names : List (List Char)) : List Char → Prop
  | nil : GoodText names []
  | cons (c : Char) (rest : List Char) : c ≠ '$' → GoodText names rest →
      GoodText names (c :: rest)
  | tok (n rest : List Char) : n ∈ names → GoodText names rest →
      GoodText names ('$' :: (n ++ rest))

/-- The text content of a w:t child (empty or not), skipping the other
run children. -/
def fragOf : RunItem → Option (Option (List Char))
  | .text c _ => some c
  | _ => none

/-- All text fragments of a run child list, in order. -/
def fragsOfItems (items : List RunItem) : List (Option (List Char)) := items.filterMap fragOf

/-- All text fragments of a paragraph, in run order. -/
def frags (p : Paragraph) : List (Option (List Char)) :=
  (p.runs.map fun r => fragsOfItems r.items).flatten

/-- A fragment the Python truthiness test keeps: present and nonempty. -/
def isTruthyFrag : Option (List Char) → Bool
  | some s => !s.isEmpty
  | none => false

/-- The text a fragment contributes to the concatenation: its content
when present and nonempty. -/
def truthyFrag : Option (List Char) → Option (List Char)
  | some s => if s.isEmpty then none else some s
  | none => none

/-- Written from the claim wording of C1: the k-th nonempty text
fragment receives the whole substituted text when k = 0 and the empty
string otherwise; fragments that were empty or absent are untouched. -/
def rewriteFragsSpec (newText : List Char) :
    Nat → List (Option (List Char)) → List (Option (List Char))
  | _, [] => []
  | k, f :: rest =>
    if isTruthyFrag f then
      (if k == 0 then some newText else some []) :: rewriteFragsSpec newText (k + 1) rest
    else f :: rewriteFragsSpec newText k rest

/-- Number of nonempty text fragments in a fragment list. -/
def countTruthy (fs : List (Option (List Char))) : Nat := (fs.filter isTruthyFrag).length

/-- The paragraphs a body element contributes to element.iter(w:p). -/
def paragraphsOfElem : BodyElem → List Paragraph
  | .p para => [para]
  | .tbl t => t.rows.flatMap fun r => r.cells.flatMap fun c => c.paras
  | _ => []

/-- All paragraphs of a region, in document order. -/
def paragraphsOf (es : List BodyElem) : List Paragraph := es.flatMap paragraphsOfElem

/-! ## Concrete instances used by the witnesses and counterexamples -/

/-- A cell with an old shading, an extra tcPr child and one paragraph
holding a colored run and a bare run. -/
def demoCellD : DCell :=
  ⟨some [.other "tcBorders", .shd "clear" "auto" "OLD"],
   [⟨none, [⟨some [.color "00FF00"]⟩, ⟨none⟩]⟩]⟩

/-- A header row holding the demo cell. -/
def demoRow0 : DRow := ⟨[demoCellD]⟩

/-- A second, plain row. -/
def demoRow1 : DRow := ⟨[⟨none, []⟩]⟩

/-- A one-table document for the recolorer witnesses. -/
def demoDocD : DDoc := ⟨[⟨[demoRow0, demoRow1]⟩]⟩

/-- The three variables of main with concrete values. -/
def demoVars : List (List Char × List Char) :=
  [(lit "DocCode", lit "D-001"), (lit "DocName", lit "Spec"), (lit "Version", lit "1.0")]

/-- A paragraph whose token is split across two runs and two fragments. -/
def demoPara : Paragraph :=
  ⟨none, [⟨[.text (some (lit "$Doc")) false]⟩,
          ⟨[.text (some (lit "Code x")) false, .tab]⟩]⟩

/-- A paragraph holding a page break. -/
def demoBreakPara : Paragraph := ⟨none, [⟨[.br (some (lit "page"))]⟩]⟩

/-- A cell of the demo cover table. -/
def demoCellT : TCell := ⟨none, [⟨none, [⟨[.text (some (lit "$DocName")) false]⟩]⟩]⟩

/-- A two-column cover table with tblPr and grid present. -/
def demoTbl : Tbl :=
  ⟨some ⟨none, none⟩, some ⟨[⟨none⟩, ⟨none⟩]⟩, [⟨[demoCellT, ⟨none, []⟩]⟩]⟩

/-- A template body whose cover starts with a table and ends at the
page-break paragraph. -/
def demoTmplBody : List BodyElem :=
  [.tbl demoTbl, .p demoBreakPara, .p ⟨none, []⟩, .sectPr]

/-- A target body with its own cover. -/
def demoTgtBody : List BodyElem :=
  [.p demoPara, .p demoBreakPara, .p ⟨none, []⟩, .sectPr]

/-- A section with some content everywhere. -/
def demoSect : Sect :=
  ⟨false, [.p demoPara], [.p demoPara], [.p demoPara], [.p demoPara],
   some ⟨some "decimal", none⟩⟩

/-- A one-section template. -/
def demoTplSects : List Sect := [demoSect]

/-- A two-section target, exercising the clamped pairing. -/
def demoTgtSects : List Sect := [demoSect, demoSect]

/-- A paragraph with a tab immediately before the label, the label being
split over two text fragments of the same run. -/
def cexTabPara : Paragraph :=
  ⟨none, [⟨[.tab, .text (some (lit "販売")) false, .text (some (lit "名")) false]⟩]⟩

/-- Variables whose last value reintroduces the token of the first. -/
def cexVars7 : List (List Char × List Char) :=
  [(lit "DocCode", lit "X"), (lit "DocName", lit "N"), (lit "Version", lit "$DocCode")]

/-- A paragraph holding only the token of the last variable. -/
def cexPara7 : Paragraph := ⟨none, [⟨[.text (some (lit "$Version")) false]⟩]⟩

/-- A paragraph whose text satisfies the amended hypothesis: its only
dollar sign begins a configured token. -/
def goodPara7 : Paragraph :=
  ⟨none, [⟨[.text (some (lit "Doc ")) false, .text (some (lit "$DocCode")) false]⟩]⟩

/-- A paragraph on which the tab fix fires: the second run holds the
label in one fragment, so both runs lose their tabs. -/
def demoFixPara : Paragraph :=
  ⟨none, [⟨[.tab]⟩, ⟨[.tab, .text (some labelHanbaimei) false]⟩]⟩

/-! ## Lemmas about the recolorer -/

lemma dt_filterMap_shdFill_filter (l : List TcPrItem) :
    (l.filter fun it => !isShd it).filterMap shdFill = [] := by
  induction l with
  | nil => rfl
  | cons a l ih => cases a <;> simp_all [isShd, shdFill]

lemma dt_cellFills_setCellShading (c : DCell) (bg : String) :
    cellFills (setCellShading c bg) = [bg] := by
  simp [cellFills, setCellShading, List.filterMap_append, dt_filterMap_shdFill_filter, shdFill]

lemma dt_filterMap_colorVal_filter (l : List RPrItem) :
    (l.filter fun it => !isColorItem it).filterMap colorVal = [] := by
  induction l with
  | nil => rfl
  | cons a l ih => cases a <;> simp_all [isColorItem, colorVal]

lemma dt_runColors_setRunColor (r : DRun) (c : String) :
    runColors (setRunColor r c) = [c] := by
  simp [runColors, setRunColor, List.filterMap_append, dt_filterMap_colorVal_filter, colorVal]

lemma dt_paraDefaultColors_setParagraphRunColor (p : DPara) (c : String) :
    paraDefaultColors (setParagraphRunColor p c) = [c] := by
  simp [paraDefaultColors, setParagraphRunColor, List.filterMap_append,
    dt_filterMap_colorVal_filter, colorVal]

lemma dt_filter_shd_idem (l : List TcPrItem) (bg : String) :
    ((l.filter fun it => !isShd it) ++ [TcPrItem.shd "clear" "auto" bg]).filter
        (fun it => !isShd it)
      = l.filter fun it => !isShd it := by
  simp [List.filter_append, List.filter_filter, isShd]

lemma dt_setCellShading_idem (c : DCell) (bg : String) :
    setCellShading (setCellShading c bg) bg = setCellShading c bg := by
  simp [setCellShading, dt_filter_shd_idem, isShd]

lemma dt_filter_color_idem (l : List RPrItem) (c : String) :
    ((l.filter fun it => !isColorItem it) ++ [RPrItem.color c]).filter
        (fun it => !isColorItem it)
      = l.filter fun it => !isColorItem it := by
  simp [List.filter_append, List.filter_filter, isColorItem]

lemma dt_setRunColor_idem (r : DRun) (c : String) :
    setRunColor (setRunColor r c) c = setRunColor r c := by
  simp [setRunColor, dt_filter_color_idem, isColorItem]

lemma dt_setParagraphRunColor_idem (p : DPara) (c : String) :
    setParagraphRunColor (setParagraphRunColor p c) c = setParagraphRunColor p c := by
  simp [setParagraphRunColor, dt_filter_color_idem, List.map_map, isColorItem]
  exact fun r _ => dt_setRunColor_idem r c

lemma dt_recolorCell_idem (c : DCell) (bg txt : String) :
    recolorCell (recolorCell c bg txt) bg txt = recolorCell c bg txt := by
  simp [recolorCell, setCellShading, dt_filter_shd_idem, List.map_map, isShd]
  exact fun p _ => dt_setParagraphRunColor_idem p txt

lemma dt_recolorHeaderRow_idem (r : DRow) (bg txt : String) :
    recolorHeaderRow (recolorHeaderRow r bg txt) bg txt = recolorHeaderRow r bg txt := by
  simp [recolorHeaderRow, List.map_map]
  exact fun c _ => dt_recolorCell_idem c bg txt

/-! ## Claims C4 and C9 (the recolorer) -/

/-- C4: every table with at least one row has row 0 recolored: each cell
of row 0 carries exactly the fixed fill 1F4E79, every run and every
paragraph default in those cells carries exactly the fixed color FFFFFF,
rows from index 1 on are unmodified, and zero-row tables are skipped. -/
theorem claimC4_header_recolor (doc : DDoc) (i : Nat) (hi : i < doc.tables.length) :
    ((doc.tables.getD i ⟨[]⟩).rows = [] →
      (processTableHeaders doc headerBgColor textColorWhite).tables.getD i ⟨[]⟩
        = doc.tables.getD i ⟨[]⟩)
    ∧ ∀ r0 rest, (doc.tables.getD i ⟨[]⟩).rows = r0 :: rest →
        ((processTableHeaders doc headerBgColor textColorWhite).tables.getD i ⟨[]⟩).rows
            = recolorHeaderRow r0 headerBgColor textColorWhite :: rest
          ∧ ∀ c ∈ (recolorHeaderRow r0 headerBgColor textColorWhite).cells,
              cellFills c = [headerBgColor]
              ∧ ∀ p ∈ c.paras,
                  paraDefaultColors p = [textColorWhite]
                  ∧ ∀ r ∈ p.runs, runColors r = [textColorWhite] := by
  have hmap : (processTableHeaders doc headerBgColor textColorWhite).tables.getD i ⟨[]⟩
      = (fun t : DTable =>
          match t.rows with
          | [] => t
          | r0 :: rest => { rows := recolorHeaderRow r0 headerBgColor textColorWhite :: rest })
          (doc.tables.getD i ⟨[]⟩) := by
    simp [processTableHeaders, List.getD_eq_getElem?_getD, List.getElem?_map,
      List.getElem?_eq_getElem hi]
  constructor
  · intro h0
    rw [hmap]
    simp only [h0]
  · intro r0 rest hrows
    constructor
    · rw [hmap]
      simp only [hrows]
    · intro c hc
      simp only [recolorHeaderRow, List.mem_map] at hc
      obtain ⟨c0, _, rfl⟩ := hc
      refine ⟨dt_cellFills_setCellShading _ _ , ?_⟩
      intro p hp
      simp only [recolorCell, setCellShading, List.mem_map] at hp
      obtain ⟨p0, _, rfl⟩ := hp
      refine ⟨dt_paraDefaultColors_setParagraphRunColor _ _, ?_⟩
      intro r hr
      simp only [setParagraphRunColor, List.mem_map] at hr
      obtain ⟨r1, _, rfl⟩ := hr
      exact dt_runColors_setRunColor _ _

/-- Witness for C4 at a concrete one-table document. -/
theorem claimC4_header_recolor_witness :
    0 < demoDocD.tables.length
    ∧ ((processTableHeaders demoDocD headerBgColor textColorWhite).tables.getD 0 ⟨[]⟩).rows
        = recolorHeaderRow demoRow0 headerBgColor textColorWhite :: [demoRow1]
    ∧ cellFills (recolorCell demoCellD headerBgColor textColorWhite) = [headerBgColor] :=
  ⟨by decide,
   ((claimC4_header_recolor demoDocD 0 (by decide)).2 demoRow0 [demoRow1] (by decide)).1,
   (((claimC4_header_recolor demoDocD 0 (by decide)).2 demoRow0 [demoRow1] (by decide)).2
      (recolorCell demoCellD headerBgColor textColorWhite) (by decide)).1⟩

/-- C9: the recolorer is idempotent: a second application of
process_table_headers with the same fixed colors changes nothing. -/
theorem claimC9_recolor_idempotent (doc : DDoc) (bg txt : String) :
    processTableHeaders (processTableHeaders doc bg txt) bg txt
      = processTableHeaders doc bg txt := by
  unfold processTableHeaders
  simp only [List.map_map]
  congr 1
  apply List.map_congr_left
  intro t _
  cases h : t.rows with
  | nil => simp [Function.comp, h]
  | cons r0 rest => simp [Function.comp, h, dt_recolorHeaderRow_idem]

/-! ## Lemmas about the cover scan and splice -/

lemma tp_getCover_eq_take (body : List BodyElem) :
    getCoverPageElements body = body.take (coverSpecLen body) := by
  induction body with
  | nil => rfl
  | cons e rest ih =>
    cases e with
    | p para =>
      by_cases h : pageBreakCheck para
      · simp [getCoverPageElements, coverSpecLen, h]
      · simp [getCoverPageElements, coverSpecLen, h, ih]
    | tbl t => simp [getCoverPageElements, coverSpecLen, ih]
    | sectPr => simp [getCoverPageElements, coverSpecLen]
    | other => simp [getCoverPageElements, coverSpecLen, ih]

lemma tp_getCover_no_sectPr (body : List BodyElem) :
    ∀ e ∈ getCoverPageElements body, e ≠ BodyElem.sectPr := by
  induction body with
  | nil => intro e he; simp [getCoverPageElements] at he
  | cons e0 rest ih =>
    intro e he
    cases e0 with
    | p para =>
      by_cases h : pageBreakCheck para
      · simp [getCoverPageElements, h] at he
        simp [he]
      · simp [getCoverPageElements, h] at he
        rcases he with he | he
        · simp [he]
        · exact ih e he
    | tbl t =>
      simp [getCoverPageElements] at he
      rcases he with he | he
      · simp [he]
      · exact ih e he
    | sectPr => simp [getCoverPageElements] at he
    | other =>
      simp [getCoverPageElements] at he
      rcases he with he | he
      · simp [he]
      · exact ih e he

lemma tp_take_own_length (n : Nat) (l : List BodyElem) :
    l.take (l.take n).length = l.take n := by
  rcases le_total n l.length with h | h
  · simp [List.length_take, Nat.min_eq_left h]
  · simp [List.length_take, Nat.min_eq_right h, List.take_of_length_le h]

lemma tp_cover_prefix (body : List BodyElem) :
    body = getCoverPageElements body
      ++ body.drop (getCoverPageElements body).length := by
  conv_lhs => rw [← List.take_append_drop (getCoverPageElements body).length body]
  rw [tp_getCover_eq_take, tp_take_own_length, ← tp_getCover_eq_take]

lemma tp_eraseFold_append (l rest : List BodyElem) :
    l.foldl (fun b e => b.erase e) (l ++ rest) = rest := by
  induction l with
  | nil => rfl
  | cons a l2 ih =>
    simp only [List.cons_append, List.foldl_cons, List.erase_cons_head]
    exact ih

lemma tp_insertAt_append (front body : List BodyElem) (a : BodyElem) :
    insertAt (front ++ body) front.length a = (front ++ [a]) ++ body := by
  simp [insertAt, List.take_left, List.drop_left]

lemma tp_coverLoop_splice (vars : List (List Char × List Char)) (es : List BodyElem) :
    ∀ (ft : Bool) (front body : List BodyElem),
      coverLoop vars ft front.length es (front ++ body)
        = front ++ transformCover vars ft es ++ body := by
  induction es with
  | nil => intro ft front body; simp [coverLoop, transformCover]
  | cons e es2 ih =>
    intro ft front body
    rw [coverLoop, transformCover]
    cases hws : widthFixStep (substBodyElem vars e) ft with
    | mk e2 ft2 =>
      simp only
      rw [tp_insertAt_append]
      have hlen : front.length + 1 = (front ++ [e2]).length := by simp
      rw [hlen, ih ft2 (front ++ [e2]) body]
      simp

lemma tp_replaceCover_eq (vars : List (List Char × List Char))
    (tmplBody tgtBody : List BodyElem) :
    replaceCoverPage vars tmplBody tgtBody
      = transformCover vars true (getCoverPageElements tmplBody)
          ++ tgtBody.drop (getCoverPageElements tgtBody).length := by
  unfold replaceCoverPage
  cases hcov : getCoverPageElements tgtBody with
  | nil =>
    simpa [hcov] using tp_coverLoop_splice vars (getCoverPageElements tmplBody) true [] tgtBody
  | cons e0 cs =>
    have hpre := tp_cover_prefix tgtBody
    rw [hcov] at hpre
    have hpos : tgtBody.findIdx (fun x => x == e0) = 0 := by
      conv_lhs => rw [hpre]
      simp [List.findIdx_cons]
    have hrem :
        (e0 :: cs).foldl (fun b e => b.erase e) tgtBody
          = tgtBody.drop (getCoverPageElements tgtBody).length := by
      conv_lhs => rw [hpre]
      rw [tp_eraseFold_append]
      rw [hcov]
    simp only [hpos, hrem]
    have := tp_coverLoop_splice vars (getCoverPageElements tmplBody) true []
      (tgtBody.drop (getCoverPageElements tgtBody).length)
    simpa [hcov] using this

/-! ## Claims C2 and C10 (the cover replacement) -/

/-- C2: the cover scan returns exactly the leading body elements up to
and including the first page-break paragraph, stopping before a
body-level sectPr and taking the whole scanned body otherwise; the
applier removes the target cover and splices the substituted deep copy
of the template cover at the recorded position, which is body index 0
also when the target has no cover. -/
theorem claimC2_cover_replacement (vars : List (List Char × List Char))
    (tmplBody tgtBody : List BodyElem) :
    getCoverPageElements tgtBody = tgtBody.take (coverSpecLen tgtBody)
    ∧ replaceCoverPage vars tmplBody tgtBody
        = transformCover vars true (getCoverPageElements tmplBody)
            ++ tgtBody.drop (getCoverPageElements tgtBody).length
    ∧ (getCoverPageElements tgtBody = [] →
        replaceCoverPage vars tmplBody tgtBody
          = transformCover vars true (getCoverPageElements tmplBody) ++ tgtBody) := by
  refine ⟨tp_getCover_eq_take tgtBody, tp_replaceCover_eq vars tmplBody tgtBody, ?_⟩
  intro h0
  rw [tp_replaceCover_eq vars tmplBody tgtBody, h0]
  simp

/-- Witness for C2 on a target consisting of a lone sectPr (no cover). -/
theorem claimC2_cover_replacement_witness :
    replaceCoverPage demoVars demoTmplBody [BodyElem.sectPr]
      = transformCover demoVars true (getCoverPageElements demoTmplBody)
          ++ [BodyElem.sectPr] :=
  (claimC2_cover_replacement demoVars demoTmplBody [BodyElem.sectPr]).2.2 (by decide)

/-- C10: the cover replacement keeps every body element after the cover
boundary, in order, as the suffix of the output after the inserted
elements; the scan never takes a body-level sectPr. -/
theorem claimC10_cover_frame (vars : List (List Char × List Char))
    (tmplBody tgtBody : List BodyElem) :
    (replaceCoverPage vars tmplBody tgtBody).drop
        (transformCover vars true (getCoverPageElements tmplBody)).length
      = tgtBody.drop (getCoverPageElements tgtBody).length
    ∧ ∀ e ∈ getCoverPageElements tgtBody, e ≠ BodyElem.sectPr := by
  refine ⟨?_, tp_getCover_no_sectPr tgtBody⟩
  rw [tp_replaceCover_eq vars tmplBody tgtBody, List.drop_left]

/-! ## Claim C5 (the footer rebuild) -/

lemma tp_copyFooterSect_eq (s : Sect) :
    copyFooterSect s
      = { s with
          differentFirstPage := true,
          pgNumType := some ⟨some "numberInDash", some "0"⟩,
          firstPageFooter := [],
          footer := [BodyElem.p pageFieldParagraph] } := by
  cases h : s.pgNumType with
  | none => simp [copyFooterSect, setPageNumberFormat, h]
  | some pg => simp [copyFooterSect, setPageNumberFormat, h]

/-- C5: after the footer pass every section has the different-first-page
flag on, page numbering numberInDash starting at 0, an empty first-page
footer and a regular footer holding exactly the freshly built paragraph,
which is center-justified and carries the PAGE field as the run sequence
begin, instruction text, separate, placeholder, end. -/
theorem claimC5_footer_rebuild (secs : List Sect) (i : Nat) (hi : i < secs.length) :
    (copyFooters secs).getD i emptySect
      = { secs.getD i emptySect with
          differentFirstPage := true,
          pgNumType := some ⟨some "numberInDash", some "0"⟩,
          firstPageFooter := [],
          footer := [BodyElem.p pageFieldParagraph] }
    ∧ pageFieldParagraph.jc = some (lit "center")
    ∧ pageFieldParagraph.runs
        = [⟨[RunItem.fldChar (lit "begin")]⟩,
           ⟨[RunItem.instrText (lit " PAGE ")]⟩,
           ⟨[RunItem.fldChar (lit "separate")]⟩,
           ⟨[RunItem.text (some (lit "1")) false]⟩,
           ⟨[RunItem.fldChar (lit "end")]⟩] := by
  refine ⟨?_, rfl, rfl⟩
  have hmap : (copyFooters secs).getD i emptySect = copyFooterSect (secs.getD i emptySect) := by
    simp [copyFooters, List.getD_eq_getElem?_getD, List.getElem?_map,
      List.getElem?_eq_getElem hi]
  rw [hmap, tp_copyFooterSect_eq]

/-- Witness for C5 at the two-section demo target. -/
theorem claimC5_footer_rebuild_witness :
    0 < demoTgtSects.length
    ∧ (copyFooters demoTgtSects).getD 0 emptySect
        = { demoTgtSects.getD 0 emptySect with
            differentFirstPage := true,
            pgNumType := some ⟨some "numberInDash", some "0"⟩,
            firstPageFooter := [],
            footer := [BodyElem.p pageFieldParagraph] } :=
  ⟨by decide, (claimC5_footer_rebuild demoTgtSects 0 (by decide)).1⟩

/-! ## Claim C3 (the header copy) -/

lemma tp_copyHeadersAux_getD (vars : List (List Char × List Char)) (tpl : List Sect) :
    ∀ (tgt : List Sect) (j i : Nat), i < tgt.length →
      (copyHeadersAux vars tpl j tgt).getD i emptySect
        = applyHeaderCopy vars (tpl.getD (min (j + i) (tpl.length - 1)) emptySect)
            (tgt.getD i emptySect) := by
  intro tgt
  induction tgt with
  | nil => intro j i hi; simp at hi
  | cons s rest ih =>
    intro j i hi
    cases i with
    | zero => simp [copyHeadersAux]
    | succ i2 =>
      simp only [copyHeadersAux, List.getD_cons_succ]
      have h2 := ih (j + 1) i2 (by simpa using hi)
      have harith : j + 1 + i2 = j + (i2 + 1) := by omega
      rw [harith] at h2
      exact h2

lemma tp_copyHeadersAux_length (vars : List (List Char × List Char)) (tpl : List Sect) :
    ∀ (tgt : List Sect) (j : Nat), (copyHeadersAux vars tpl j tgt).length = tgt.length := by
  intro tgt
  induction tgt with
  | nil => intro j; rfl
  | cons s rest ih => intro j; simp [copyHeadersAux, ih]

/-- C3: the header pass preserves the section count; section i of the
target is paired with template section min(i, last template index),
gets the different-first-page flag, and both its headers are refilled
with the substituted (and tab-fixed) deep copy of the paired template
header children; when the target has more sections than the template
the pairing index clamps to the last template section. -/
theorem claimC3_header_copy (vars : List (List Char × List Char)) (tpl tgt : List Sect)
    (htpl : tpl ≠ []) (i : Nat) (hi : i < tgt.length) :
    (copyHeaders vars tpl tgt).length = tgt.length
    ∧ (copyHeaders vars tpl tgt).getD i emptySect
        = { tgt.getD i emptySect with
            differentFirstPage := true,
            firstPageHeader := copyHeaderContent vars
              (tpl.getD (min i (tpl.length - 1)) emptySect).firstPageHeader,
            header := copyHeaderContent vars
              (tpl.getD (min i (tpl.length - 1)) emptySect).header }
    ∧ copyHeaderContent vars (tpl.getD (min i (tpl.length - 1)) emptySect).header
        = removeTabElements (substElements vars
            (tpl.getD (min i (tpl.length - 1)) emptySect).header)
    ∧ (tpl.length ≤ i →
        tpl.getD (min i (tpl.length - 1)) emptySect = tpl.getLast htpl) := by
  refine ⟨tp_copyHeadersAux_length vars tpl tgt 0, ?_, rfl, ?_⟩
  · have h := tp_copyHeadersAux_getD vars tpl tgt 0 i hi
    simp only [Nat.zero_add] at h
    rw [copyHeaders, h]
    rfl
  · intro hle
    have hmin : min i (tpl.length - 1) = tpl.length - 1 := by omega
    rw [hmin]
    have hlt : tpl.length - 1 < tpl.length := by
      cases tpl with
      | nil => exact absurd rfl htpl
      | cons a l => simp
    rw [List.getLast_eq_getElem]
    simp [List.getD_eq_getElem?_getD, List.getElem?_eq_getElem hlt]

/-- Witness for C3 at a one-section template and two-section target,
exercising the clamp at excess section index 1. -/
theorem claimC3_header_copy_witness :
    demoTplSects ≠ []
    ∧ 1 < demoTgtSects.length
    ∧ (copyHeaders demoVars demoTplSects demoTgtSects).getD 1 emptySect
        = { demoTgtSects.getD 1 emptySect with
            differentFirstPage := true,
            firstPageHeader := copyHeaderContent demoVars
              (demoTplSects.getD (min 1 (demoTplSects.length - 1)) emptySect).firstPageHeader,
            header := copyHeaderContent demoVars
              (demoTplSects.getD (min 1 (demoTplSects.length - 1)) emptySect).header }
    ∧ demoTplSects.getD (min 1 (demoTplSects.length - 1)) emptySect
        = demoTplSects.getLast (by decide) :=
  ⟨by decide, by decide,
   (claimC3_header_copy demoVars demoTplSects demoTgtSects (by decide) 1 (by decide)).2.1,
   (claimC3_header_copy demoVars demoTplSects demoTgtSects (by decide) 1 (by decide)).2.2.2
     (by decide)⟩

/-! ## Claim C6 (cover-table widths) -/

lemma tp_transformCover_cons_tbl (vars : List (List Char × List Char)) (t : Tbl)
    (rest : List BodyElem) :
    transformCover vars true (BodyElem.tbl t :: rest)
      = BodyElem.tbl (setTableColumnWidths (substTbl vars t) 45 135)
          :: transformCover vars false rest := by
  rw [transformCover]
  simp [substBodyElem, widthFixStep]

/-- C6: when the first copied cover element is a table (with the tblPr
every well-formed table carries), the output body starts with that
table transformed so that its layout is fixed, its total width is the
sum of the two column widths, and in every row the first cell gets the
45mm width, the second cell the 135mm width (int(mm * 56.7) giving 2551
and 7654 twips), likewise the first two grid columns; rows or grids
with fewer cells or columns get only the widths that exist. -/
theorem claimC6_cover_table_widths (vars : List (List Char × List Char))
    (tmplBody tgtBody : List BodyElem) (t : Tbl) (rest : List BodyElem)
    (hcov : getCoverPageElements tmplBody = BodyElem.tbl t :: rest)
    (pr : TblPr) (hpr : t.tblPr = some pr) :
    mmToTwips 45 = 2551 ∧ mmToTwips 135 = 7654
    ∧ (replaceCoverPage vars tmplBody tgtBody).headD BodyElem.other
        = BodyElem.tbl (setTableColumnWidths (substTbl vars t) 45 135)
    ∧ (substTbl vars t).tblPr = t.tblPr
    ∧ (setTableColumnWidths (substTbl vars t) 45 135).tblPr
        = some { pr with layoutType := some "fixed", tblW := some (2551 + 7654, "dxa") }
    ∧ (setTableColumnWidths (substTbl vars t) 45 135).rows
        = (substTbl vars t).rows.map (fun r => ⟨setRowCellWidths r.cells 2551 7654⟩)
    ∧ (∀ cells : List TCell,
        (0 < cells.length →
          (setRowCellWidths cells 2551 7654).getD 0 ⟨none, []⟩
            = setCellWidthT (cells.getD 0 ⟨none, []⟩) 2551)
        ∧ (1 < cells.length →
          (setRowCellWidths cells 2551 7654).getD 1 ⟨none, []⟩
            = setCellWidthT (cells.getD 1 ⟨none, []⟩) 7654)
        ∧ (setRowCellWidths cells 2551 7654).drop 2 = cells.drop 2
        ∧ (setRowCellWidths cells 2551 7654).length = cells.length)
    ∧ (∀ g : TblGrid, (substTbl vars t).grid = some g →
        (setTableColumnWidths (substTbl vars t) 45 135).grid
          = some ⟨setGridColWidths g.cols 2551 7654⟩
        ∧ (0 < g.cols.length →
            (setGridColWidths g.cols 2551 7654).getD 0 ⟨none⟩ = ⟨some 2551⟩)
        ∧ (1 < g.cols.length →
            (setGridColWidths g.cols 2551 7654).getD 1 ⟨none⟩ = ⟨some 7654⟩)
        ∧ (setGridColWidths g.cols 2551 7654).drop 2 = g.cols.drop 2)
    ∧ ((substTbl vars t).grid = none →
        (setTableColumnWidths (substTbl vars t) 45 135).grid = none) := by
  have hsub : (substTbl vars t).tblPr = t.tblPr := rfl
  refine ⟨by decide, by decide, ?_, hsub, ?_, ?_, ?_, ?_, ?_⟩
  · rw [tp_replaceCover_eq vars tmplBody tgtBody, hcov, tp_transformCover_cons_tbl]
    rfl
  · simp only [setTableColumnWidths, hsub, hpr]
    norm_num [mmToTwips]
  · simp only [setTableColumnWidths]
    norm_num [mmToTwips]
  · intro cells
    rcases cells with _ | ⟨a, _ | ⟨b, cs⟩⟩ <;>
      simp [setRowCellWidths, setCellWidthT]
  · intro g hg
    refine ⟨?_, ?_, ?_, ?_⟩
    · simp only [setTableColumnWidths, hg]
      norm_num [mmToTwips]
    · intro h0
      rcases hc : g.cols with _ | ⟨a, _ | ⟨b, cs⟩⟩ <;>
        simp_all [setGridColWidths]
    · intro h1
      rcases hc : g.cols with _ | ⟨a, _ | ⟨b, cs⟩⟩ <;>
        simp_all [setGridColWidths]
    · rcases hc : g.cols with _ | ⟨a, _ | ⟨b, cs⟩⟩ <;>
        simp_all [setGridColWidths]
  · intro hg
    simp only [setTableColumnWidths, hg]

/-- Witness for C6 on the demo template whose cover starts with a
two-column table. -/
theorem claimC6_cover_table_widths_witness :
    getCoverPageElements demoTmplBody = BodyElem.tbl demoTbl :: [BodyElem.p demoBreakPara]
    ∧ demoTbl.tblPr = some ⟨none, none⟩
    ∧ (replaceCoverPage demoVars demoTmplBody demoTgtBody).headD BodyElem.other
        = BodyElem.tbl (setTableColumnWidths (substTbl demoVars demoTbl) 45 135) :=
  ⟨by decide, by decide,
   (claimC6_cover_table_widths demoVars demoTmplBody demoTgtBody demoTbl
      [BodyElem.p demoBreakPara] (by decide) ⟨none, none⟩ (by decide)).2.2.1⟩

/-! ## Claim C1 (variable substitution in a paragraph) -/

lemma tp_rewriteRunItems_spec (newText : List Char) :
    ∀ (items : List RunItem) (k : Nat),
      fragsOfItems (rewriteRunItems newText k items).1
          = rewriteFragsSpec newText k (fragsOfItems items)
        ∧ (rewriteRunItems newText k items).2 = k + countTruthy (fragsOfItems items) := by
  intro items
  induction items with
  | nil => intro k; simp [rewriteRunItems, fragsOfItems, rewriteFragsSpec, countTruthy]
  | cons it rest ih =>
    intro k
    cases it with
    | text c sp =>
      cases c with
      | none =>
        rcases hres : rewriteRunItems newText k rest with ⟨r, k2⟩
        obtain ⟨h1, h2⟩ := ih k
        rw [hres] at h1 h2
        replace h1 : List.filterMap fragOf r
            = rewriteFragsSpec newText k (List.filterMap fragOf rest) := h1
        replace h2 : k2 = k + (List.filter isTruthyFrag (List.filterMap fragOf rest)).length := h2
        simp [rewriteRunItems, hres, fragsOfItems, fragOf, rewriteFragsSpec,
          isTruthyFrag, countTruthy, h1, h2]
      | some s =>
        cases hs : s.isEmpty with
        | true =>
          rcases hres : rewriteRunItems newText k rest with ⟨r, k2⟩
          obtain ⟨h1, h2⟩ := ih k
          rw [hres] at h1 h2
          replace h1 : List.filterMap fragOf r
            = rewriteFragsSpec newText k (List.filterMap fragOf rest) := h1
          replace h2 : k2 = k + (List.filter isTruthyFrag (List.filterMap fragOf rest)).length := h2
          simp [rewriteRunItems, hres, hs, fragsOfItems, fragOf, rewriteFragsSpec,
            isTruthyFrag, countTruthy, h1, h2]
        | false =>
          rcases hres : rewriteRunItems newText (k + 1) rest with ⟨r, k2⟩
          obtain ⟨h1, h2⟩ := ih (k + 1)
          rw [hres] at h1 h2
          replace h1 : List.filterMap fragOf r
            = rewriteFragsSpec newText (k + 1) (List.filterMap fragOf rest) := h1
          replace h2 : k2 = k + 1 + (List.filter isTruthyFrag (List.filterMap fragOf rest)).length := h2
          cases hk : k == 0 <;>
            simp [rewriteRunItems, hres, hs, hk, fragsOfItems, fragOf, rewriteFragsSpec,
              isTruthyFrag, countTruthy, h1, h2] <;> omega
    | tab =>
      rcases hres : rewriteRunItems newText k rest with ⟨r, k2⟩
      obtain ⟨h1, h2⟩ := ih k
      rw [hres] at h1 h2
      replace h1 : List.filterMap fragOf r
            = rewriteFragsSpec newText k (List.filterMap fragOf rest) := h1
      replace h2 : k2 = k + (List.filter isTruthyFrag (List.filterMap fragOf rest)).length := h2
      simp [rewriteRunItems, hres, fragsOfItems, fragOf, rewriteFragsSpec,
        isTruthyFrag, countTruthy, h1, h2]
    | br ty =>
      rcases hres : rewriteRunItems newText k rest with ⟨r, k2⟩
      obtain ⟨h1, h2⟩ := ih k
      rw [hres] at h1 h2
      replace h1 : List.filterMap fragOf r
            = rewriteFragsSpec newText k (List.filterMap fragOf rest) := h1
      replace h2 : k2 = k + (List.filter isTruthyFrag (List.filterMap fragOf rest)).length := h2
      simp [rewriteRunItems, hres, fragsOfItems, fragOf, rewriteFragsSpec,
        isTruthyFrag, countTruthy, h1, h2]
    | fldChar ty =>
      rcases hres : rewriteRunItems newText k rest with ⟨r, k2⟩
      obtain ⟨h1, h2⟩ := ih k
      rw [hres] at h1 h2
      replace h1 : List.filterMap fragOf r
            = rewriteFragsSpec newText k (List.filterMap fragOf rest) := h1
      replace h2 : k2 = k + (List.filter isTruthyFrag (List.filterMap fragOf rest)).length := h2
      simp [rewriteRunItems, hres, fragsOfItems, fragOf, rewriteFragsSpec,
        isTruthyFrag, countTruthy, h1, h2]
    | instrText s =>
      rcases hres : rewriteRunItems newText k rest with ⟨r, k2⟩
      obtain ⟨h1, h2⟩ := ih k
      rw [hres] at h1 h2
      replace h1 : List.filterMap fragOf r
            = rewriteFragsSpec newText k (List.filterMap fragOf rest) := h1
      replace h2 : k2 = k + (List.filter isTruthyFrag (List.filterMap fragOf rest)).length := h2
      simp [rewriteRunItems, hres, fragsOfItems, fragOf, rewriteFragsSpec,
        isTruthyFrag, countTruthy, h1, h2]

lemma tp_rewriteFragsSpec_append (newText : List Char) :
    ∀ (a b : List (Option (List Char))) (k : Nat),
      rewriteFragsSpec newText k (a ++ b)
        = rewriteFragsSpec newText k a ++ rewriteFragsSpec newText (k + countTruthy a) b := by
  intro a
  induction a with
  | nil => intro b k; simp [rewriteFragsSpec, countTruthy]
  | cons f fs ih =>
    intro b k
    cases hf : isTruthyFrag f with
    | false =>
      have hct : countTruthy (f :: fs) = countTruthy fs := by
        simp [countTruthy, List.filter_cons, hf]
      simp only [List.cons_append, rewriteFragsSpec, hf, Bool.false_eq_true, if_false, hct,
        List.append_eq]
      rw [ih b k]
    | true =>
      have hct : countTruthy (f :: fs) = countTruthy fs + 1 := by
        simp [countTruthy, List.filter_cons, hf]
      simp only [List.cons_append, rewriteFragsSpec, hf, if_true, hct, List.append_eq]
      rw [ih b (k + 1)]
      have harith : k + 1 + countTruthy fs = k + (countTruthy fs + 1) := by omega
      rw [harith]

lemma tp_rewriteRuns_spec (newText : List Char) :
    ∀ (runs : List Run) (k : Nat),
      (((rewriteRuns newText k runs).1.map fun r => fragsOfItems r.items).flatten
          = rewriteFragsSpec newText k ((runs.map fun r => fragsOfItems r.items).flatten))
        ∧ (rewriteRuns newText k runs).2
          = k + countTruthy ((runs.map fun r => fragsOfItems r.items).flatten) := by
  intro runs
  induction runs with
  | nil => intro k; simp [rewriteRuns, rewriteFragsSpec, countTruthy]
  | cons r rs ih =>
    intro k
    rcases hitems : rewriteRunItems newText k r.items with ⟨items2, k2⟩
    obtain ⟨hit1, hit2⟩ := tp_rewriteRunItems_spec newText r.items k
    rw [hitems] at hit1 hit2
    replace hit1 : fragsOfItems items2 = rewriteFragsSpec newText k (fragsOfItems r.items) :=
      hit1
    replace hit2 : k2 = k + countTruthy (fragsOfItems r.items) := hit2
    rcases hrs : rewriteRuns newText k2 rs with ⟨rs2, k3⟩
    obtain ⟨hr1, hr2⟩ := ih k2
    rw [hrs] at hr1 hr2
    replace hr1 : (rs2.map fun r => fragsOfItems r.items).flatten
        = rewriteFragsSpec newText k2 ((rs.map fun r => fragsOfItems r.items).flatten) := hr1
    replace hr2 : k3 = k2 + countTruthy ((rs.map fun r => fragsOfItems r.items).flatten) := hr2
    simp only [rewriteRuns, hitems, hrs]
    constructor
    · simp only [List.map_cons, List.flatten_cons, tp_rewriteFragsSpec_append]
      rw [hit1, hr1, hit2]
    · rw [hr2, hit2]
      simp only [List.map_cons, List.flatten_cons, countTruthy, List.filter_append,
        List.length_append]
      omega

lemma tp_filterMap_truthyText (items : List RunItem) :
    items.filterMap truthyText = (fragsOfItems items).filterMap truthyFrag := by
  induction items with
  | nil => rfl
  | cons it rest ih =>
    cases it with
    | text c sp =>
      cases c with
      | none => simp [truthyText, fragsOfItems, fragOf, truthyFrag, ih]
      | some s =>
        cases hs : s.isEmpty <;>
          simp [truthyText, fragsOfItems, fragOf, truthyFrag, hs, ih]
    | tab => simp [truthyText, fragsOfItems, fragOf, ih]
    | br ty => simp [truthyText, fragsOfItems, fragOf, ih]
    | fldChar ty => simp [truthyText, fragsOfItems, fragOf, ih]
    | instrText s => simp [truthyText, fragsOfItems, fragOf, ih]

lemma tp_runText_frags (r : Run) :
    runText r = ((fragsOfItems r.items).filterMap truthyFrag).flatten := by
  simp [runText, tp_filterMap_truthyText]

lemma tp_fullText_frags (p : Paragraph) :
    fullText p = ((frags p).filterMap truthyFrag).flatten := by
  unfold fullText frags
  induction p.runs with
  | nil => rfl
  | cons r rs ih =>
    simp only [List.map_cons, List.flatten_cons, List.filterMap_append,
      List.flatten_append, tp_runText_frags, ih]

lemma tp_truthyFrag_none (f : Option (List Char)) (hf : isTruthyFrag f = false) :
    truthyFrag f = none := by
  cases f with
  | none => rfl
  | some s =>
    have hs : s = [] := by
      have h2 := hf
      simp [isTruthyFrag, List.isEmpty_iff] at h2
      exact h2
    subst hs
    rfl

lemma tp_rewriteFragsSpec_no_truthy (newText : List Char) :
    ∀ (fs : List (Option (List Char))) (k : Nat), countTruthy fs = 0 →
      rewriteFragsSpec newText k fs = fs := by
  intro fs
  induction fs with
  | nil => intro k _; rfl
  | cons f fs2 ih =>
    intro k h
    cases hf : isTruthyFrag f with
    | false =>
      have h2 : countTruthy fs2 = 0 := by
        simpa [countTruthy, List.filter_cons, hf] using h
      simp [rewriteFragsSpec, hf, ih k h2]
    | true =>
      exfalso
      simp [countTruthy, List.filter_cons, hf] at h

lemma tp_filterMap_truthyFrag_no_truthy :
    ∀ (fs : List (Option (List Char))), countTruthy fs = 0 →
      fs.filterMap truthyFrag = [] := by
  intro fs
  induction fs with
  | nil => intro _; rfl
  | cons f fs2 ih =>
    intro h
    cases hf : isTruthyFrag f with
    | false =>
      have h2 : countTruthy fs2 = 0 := by
        simpa [countTruthy, List.filter_cons, hf] using h
      simp [tp_truthyFrag_none f hf, ih h2]
    | true =>
      exfalso
      simp [countTruthy, List.filter_cons, hf] at h

lemma tp_rewriteFragsSpec_flatten (newText : List Char) :
    ∀ (fs : List (Option (List Char))) (k : Nat), 0 < countTruthy fs →
      ((rewriteFragsSpec newText k fs).filterMap truthyFrag).flatten
        = if k = 0 then newText else [] := by
  intro fs
  induction fs with
  | nil => intro k h; simp [countTruthy] at h
  | cons f fs2 ih =>
    intro k h
    cases hf : isTruthyFrag f with
    | false =>
      have h2 : 0 < countTruthy fs2 := by
        simpa [countTruthy, List.filter_cons, hf] using h
      simp [rewriteFragsSpec, hf, tp_truthyFrag_none f hf, ih k h2]
    | true =>
      have htail : (List.filterMap truthyFrag (rewriteFragsSpec newText (k + 1) fs2)).flatten
          = [] := by
        rcases Nat.eq_zero_or_pos (countTruthy fs2) with h2 | h2
        · rw [tp_rewriteFragsSpec_no_truthy newText fs2 (k + 1) h2,
            tp_filterMap_truthyFrag_no_truthy fs2 h2]
          rfl
        · simpa using ih (k + 1) h2
      by_cases hk : k = 0
      · subst hk
        simp only [Nat.zero_add] at htail
        simp only [rewriteFragsSpec, hf, if_true]
        cases newText with
        | nil => simp [truthyFrag, htail]
        | cons c cs => simp [truthyFrag, htail]
      · have hkb : (k == 0) = false := by simpa using hk
        simp [rewriteFragsSpec, hf, hkb, truthyFrag, htail, hk]

lemma tp_fullText_ne_nil_of_hasVar (vars : List (List Char × List Char)) (p : Paragraph)
    (h : hasVariable vars (fullText p) = true) : fullText p ≠ [] := by
  intro hnil
  rw [hnil] at h
  simp [hasVariable, containsSeq, List.isEmpty_iff] at h

lemma tp_runs_ne_nil_of_fullText (p : Paragraph) (h : fullText p ≠ []) :
    p.runs.isEmpty = false := by
  cases hr : p.runs with
  | nil => exact absurd (by simp [fullText, hr]) h
  | cons a l => rfl

lemma tp_countTruthy_pos (p : Paragraph) (h : fullText p ≠ []) :
    0 < countTruthy (frags p) := by
  rcases Nat.eq_zero_or_pos (countTruthy (frags p)) with h0 | h0
  · exact absurd (by rw [tp_fullText_frags, tp_filterMap_truthyFrag_no_truthy _ h0]; rfl) h
  · exact h0

lemma tp_frags_substParagraph (vars : List (List Char × List Char)) (p : Paragraph)
    (hvar : hasVariable vars (fullText p) = true) :
    frags (substParagraph vars p)
      = rewriteFragsSpec (substAll vars (fullText p)) 0 (frags p) := by
  have hruns := tp_runs_ne_nil_of_fullText p (tp_fullText_ne_nil_of_hasVar vars p hvar)
  rcases hres : rewriteRuns (substAll vars (fullText p)) 0 p.runs with ⟨rs2, k3⟩
  have hr := (tp_rewriteRuns_spec (substAll vars (fullText p)) p.runs 0).1
  rw [hres] at hr
  simp only [substParagraph, hruns, hvar, Bool.false_eq_true, if_false, if_true, hres]
  exact hr

lemma tp_fullText_substParagraph (vars : List (List Char × List Char)) (p : Paragraph)
    (hvar : hasVariable vars (fullText p) = true) :
    fullText (substParagraph vars p) = substAll vars (fullText p) := by
  have hpos := tp_countTruthy_pos p (tp_fullText_ne_nil_of_hasVar vars p hvar)
  rw [tp_fullText_frags, tp_frags_substParagraph vars p hvar,
    tp_rewriteFragsSpec_flatten _ _ 0 hpos]
  rfl

/-- C1: a paragraph without runs, or whose concatenated nonempty text
fragments hold no configured token, is left exactly as it was; when a
token is present, the fragments of the output are those of the input
with the first nonempty fragment holding the whole substituted
concatenation and every other nonempty fragment blanked to the empty
string, and everything else (including the justification) untouched. -/
theorem claimC1_variable_substitution (vars : List (List Char × List Char)) (p : Paragraph) :
    (p.runs = [] → substParagraph vars p = p)
    ∧ (hasVariable vars (fullText p) = false → substParagraph vars p = p)
    ∧ (hasVariable vars (fullText p) = true →
        frags (substParagraph vars p)
            = rewriteFragsSpec (substAll vars (fullText p)) 0 (frags p)
          ∧ (substParagraph vars p).jc = p.jc) := by
  refine ⟨?_, ?_, ?_⟩
  · intro h
    simp [substParagraph, h]
  · intro h
    by_cases hr : p.runs.isEmpty
    · simp [substParagraph, hr]
    · simp [substParagraph, hr, h]
  · intro hvar
    refine ⟨tp_frags_substParagraph vars p hvar, ?_⟩
    have hruns := tp_runs_ne_nil_of_fullText p (tp_fullText_ne_nil_of_hasVar vars p hvar)
    simp [substParagraph, hruns, hvar]

/-- Witness for C1 on a paragraph whose token spans two runs. -/
theorem claimC1_variable_substitution_witness :
    hasVariable demoVars (fullText demoPara) = true
    ∧ frags (substParagraph demoVars demoPara)
        = rewriteFragsSpec (substAll demoVars (fullText demoPara)) 0 (frags demoPara) :=
  ⟨by decide,
   ((claimC1_variable_substitution demoVars demoPara).2.2 (by decide)).1⟩

/-! ## Claim C8 (the tab-removal fix) -/

lemma tp_fixRuns_length : ∀ runs : List Run, (fixRuns runs).length = runs.length := by
  intro runs
  induction runs with
  | nil => rfl
  | cons a tail ih =>
    cases tail with
    | nil => rfl
    | cons b rest =>
      simp only [fixRuns, List.length_cons]
      rw [ih]
      simp

lemma tp_fixRuns_getD :
    ∀ (runs : List Run) (i : Nat), i < runs.length →
      (fixRuns runs).getD i ⟨[]⟩
        = if runHasLabel (runs.getD i ⟨[]⟩) || runHasLabel (runs.getD (i + 1) ⟨[]⟩) then
            removeTabsFromRun (runs.getD i ⟨[]⟩)
          else runs.getD i ⟨[]⟩ := by
  intro runs
  induction runs with
  | nil => intro i hi; simp at hi
  | cons a tail ih =>
    intro i hi
    cases tail with
    | nil =>
      have hz : i = 0 := by
        simp only [List.length_cons, List.length_nil] at hi
        omega
      subst hz
      simp [fixRuns, runHasLabel]
    | cons b rest =>
      cases i with
      | zero => simp [fixRuns]
      | succ i2 =>
        simp only [fixRuns, List.getD_cons_succ]
        exact ih i2 (by simpa using hi)

/-- C8 fails as stated: the fix fires only for runs holding the label
inside one single text fragment.  Here the label is split over two
fragments of the one run: the paragraph text contains the label, the
run holds a tab immediately before it, yet nothing is removed. -/
theorem claimC8_tab_fix_counterexample :
    containsSeq labelHanbaimei (fullText cexTabPara) = true
    ∧ cexTabPara.runs
        = [⟨[RunItem.tab, RunItem.text (some (lit "販売")) false,
             RunItem.text (some (lit "名")) false]⟩]
    ∧ removeTabBeforeLabel cexTabPara = cexTabPara :=
  ⟨by decide, by decide, by decide⟩

/-- C8 amended: a copied paragraph whose text lacks the label keeps all
its tabs; in one containing the label, exactly the runs that hold the
label in a single text fragment, and the runs immediately before those,
lose all their tab children, every other run keeping its tabs. -/
theorem claimC8_tab_fix_amended (p : Paragraph) :
    (containsSeq labelHanbaimei (fullText p) = false → removeTabBeforeLabel p = p)
    ∧ (containsSeq labelHanbaimei (fullText p) = true →
        (removeTabBeforeLabel p).runs.length = p.runs.length
        ∧ ∀ i : Nat, i < p.runs.length →
            (removeTabBeforeLabel p).runs.getD i ⟨[]⟩
              = if runHasLabel (p.runs.getD i ⟨[]⟩)
                    || runHasLabel (p.runs.getD (i + 1) ⟨[]⟩) then
                  removeTabsFromRun (p.runs.getD i ⟨[]⟩)
                else p.runs.getD i ⟨[]⟩) := by
  constructor
  · intro h
    by_cases hr : p.runs.isEmpty
    · simp [removeTabBeforeLabel, hr]
    · simp [removeTabBeforeLabel, hr, h]
  · intro h
    have hruns : p.runs.isEmpty = false := by
      cases hr : p.runs with
      | nil =>
        exfalso
        have hft : fullText p = [] := by simp [fullText, hr]
        rw [hft] at h
        simp [containsSeq, labelHanbaimei] at h
      | cons a l => rfl
    constructor
    · simp [removeTabBeforeLabel, hruns, h, tp_fixRuns_length]
    · intro i hi
      have hrw : (removeTabBeforeLabel p).runs = fixRuns p.runs := by
        simp [removeTabBeforeLabel, hruns, h]
      rw [hrw]
      exact tp_fixRuns_getD p.runs i hi

/-- Witness for the amended C8 on a paragraph where the fix fires on
the labelled run and its predecessor. -/
theorem claimC8_tab_fix_amended_witness :
    containsSeq labelHanbaimei (fullText demoFixPara) = true
    ∧ (removeTabBeforeLabel demoFixPara).runs.length = demoFixPara.runs.length
    ∧ (removeTabBeforeLabel demoFixPara).runs.getD 0 ⟨[]⟩
        = if runHasLabel (demoFixPara.runs.getD 0 ⟨[]⟩)
              || runHasLabel (demoFixPara.runs.getD 1 ⟨[]⟩) then
            removeTabsFromRun (demoFixPara.runs.getD 0 ⟨[]⟩)
          else demoFixPara.runs.getD 0 ⟨[]⟩ :=
  ⟨by decide,
   ((claimC8_tab_fix_amended demoFixPara).2 (by decide)).1,
   ((claimC8_tab_fix_amended demoFixPara).2 (by decide)).2 0 (by decide)⟩

/-! ## Claim C7 (substitution completeness)

The sequential str.replace loop can reintroduce tokens: a replacement
value may itself contain a token, and replaced text can juxtapose a
stray dollar sign with a name.  The counterexample below exhibits the
first failure; the amended claim assumes dollar-free values and source
text whose dollar signs all begin configured tokens. -/

lemma tp_replaceAllAux_congr (p0 : Char) (ps sub : List Char) :
    ∀ (f1 : Nat) (s : List Char) (f2 : Nat), s.length ≤ f1 → s.length ≤ f2 →
      replaceAllAux p0 ps sub f1 s = replaceAllAux p0 ps sub f2 s := by
  intro f1
  induction f1 with
  | zero =>
    intro s f2 h1 _
    have hnil : s = [] := List.length_eq_zero.mp (Nat.le_zero.mp h1)
    subst hnil
    cases f2 <;> rfl
  | succ f ih =>
    intro s f2 h1 h2
    cases s with
    | nil => cases f2 <;> rfl
    | cons c rest =>
      cases f2 with
      | zero => simp at h2
      | succ f2b =>
        simp only [replaceAllAux]
        cases hcond : (c == p0 && ps.isPrefixOf rest) with
        | true =>
          simp only [if_true]
          congr 1
          apply ih
          · simp only [List.length_drop]
            simp only [List.length_cons] at h1
            omega
          · simp only [List.length_drop]
            simp only [List.length_cons] at h2
            omega
        | false =>
          simp only [Bool.false_eq_true, if_false]
          congr 1
          apply ih
          · simp only [List.length_cons] at h1
            omega
          · simp only [List.length_cons] at h2
            omega

lemma tp_replaceAll_nil (p0 : Char) (ps sub : List Char) : replaceAll p0 ps sub [] = [] := rfl

lemma tp_replaceAll_cons (p0 : Char) (ps sub : List Char) (c : Char) (rest : List Char) :
    replaceAll p0 ps sub (c :: rest)
      = if c == p0 && ps.isPrefixOf rest then
          sub ++ replaceAll p0 ps sub (rest.drop ps.length)
        else c :: replaceAll p0 ps sub rest := by
  show replaceAllAux p0 ps sub (rest.length + 1) (c :: rest) = _
  simp only [replaceAllAux]
  cases hcond : (c == p0 && ps.isPrefixOf rest) with
  | true =>
    simp only [if_true]
    congr 1
    apply tp_replaceAllAux_congr
    · simp only [List.length_drop]
      omega
    · exact le_rfl
  | false => simp only [Bool.false_eq_true, if_false]; rfl

lemma tp_isPrefixOf_exists :
    ∀ (l1 l2 : List Char), l1.isPrefixOf l2 = true ↔ ∃ t, l2 = l1 ++ t := by
  intro l1
  induction l1 with
  | nil => intro l2; simp [List.isPrefixOf]
  | cons a as ih =>
    intro l2
    cases l2 with
    | nil => simp [List.isPrefixOf]
    | cons b bs =>
      simp only [List.isPrefixOf, Bool.and_eq_true, beq_iff_eq, ih bs]
      constructor
      · rintro ⟨rfl, t, rfl⟩
        exact ⟨t, rfl⟩
      · rintro ⟨t, ht⟩
        rw [List.cons_append] at ht
        injection ht with h1 h2
        exact ⟨h1.symm, t, h2⟩

lemma tp_isPrefixOf_append_self (n t : List Char) : n.isPrefixOf (n ++ t) = true := by
  rw [tp_isPrefixOf_exists]
  exact ⟨t, rfl⟩

lemma tp_prefix_total (a b l : List Char) (ha : a.isPrefixOf l = true)
    (hb : b.isPrefixOf l = true) :
    a.isPrefixOf b = true ∨ b.isPrefixOf a = true := by
  rw [tp_isPrefixOf_exists] at ha hb
  obtain ⟨t1, rfl⟩ := ha
  obtain ⟨t2, h2⟩ := hb
  rcases List.append_eq_append_iff.mp h2.symm with ⟨k, hk, _⟩ | ⟨k, hk, _⟩
  · exact Or.inr (by rw [tp_isPrefixOf_exists]; exact ⟨k, hk⟩)
  · exact Or.inl (by rw [tp_isPrefixOf_exists]; exact ⟨k, hk⟩)

lemma tp_replaceAll_shift (n v : List Char) :
    ∀ (m t : List Char), '$' ∉ m →
      replaceAll '$' n v (m ++ t) = m ++ replaceAll '$' n v t := by
  intro m
  induction m with
  | nil => intro t _; simp
  | cons c cs ih =>
    intro t hm
    have hc : c ≠ '$' := fun he => hm (he ▸ List.mem_cons_self c cs)
    rw [List.cons_append, tp_replaceAll_cons]
    have hcond : (c == '$' && n.isPrefixOf (cs ++ t)) = false := by simp [hc]
    rw [hcond]
    simp only [Bool.false_eq_true, if_false, List.cons_append]
    rw [ih t fun h2 => hm (List.mem_cons_of_mem c h2)]

lemma tp_goodText_append_left (ns : List (List Char)) :
    ∀ (v t : List Char), '$' ∉ v → GoodText ns t → GoodText ns (v ++ t) := by
  intro v
  induction v with
  | nil => intro t _ h; simpa using h
  | cons c cs ih =>
    intro t hv h
    have hc : c ≠ '$' := fun he => hv (he ▸ List.mem_cons_self c cs)
    exact GoodText.cons c _ hc (ih t (fun h2 => hv (List.mem_cons_of_mem c h2)) h)

lemma tp_goodText_nil (s : List Char) (hg : GoodText [] s) : '$' ∉ s := by
  induction hg with
  | nil => simp
  | cons c rest hc hrest ih =>
    intro h
    rcases List.mem_cons.mp h with he | h2
    · exact hc he.symm
    · exact ih h2
  | tok m rest hm hrest ih => exact absurd hm (List.not_mem_nil m)

lemma tp_goodText_step (n : List Char) (ns : List (List Char)) (v : List Char)
    (hdoll : ∀ m ∈ n :: ns, '$' ∉ m)
    (hpf : ∀ m1 ∈ n :: ns, ∀ m2 ∈ n :: ns, m1.isPrefixOf m2 = true → m1 = m2)
    (hv : '$' ∉ v) :
    ∀ (L : Nat) (s : List Char), s.length ≤ L → GoodText (n :: ns) s →
      GoodText ns (replaceAll '$' n v s) := by
  intro L
  induction L with
  | zero =>
    intro s hs hg
    have hnil : s = [] := List.length_eq_zero.mp (Nat.le_zero.mp hs)
    subst hnil
    rw [tp_replaceAll_nil]
    exact GoodText.nil
  | succ L ihL =>
    intro s hs hg
    cases hg with
    | nil =>
      rw [tp_replaceAll_nil]
      exact GoodText.nil
    | cons c rest hc hrest =>
      rw [tp_replaceAll_cons]
      have hcond : (c == '$' && n.isPrefixOf rest) = false := by simp [hc]
      rw [hcond]
      simp only [Bool.false_eq_true, if_false]
      refine GoodText.cons c _ hc (ihL rest ?_ hrest)
      simp only [List.length_cons] at hs
      omega
    | tok m rest hm hrest =>
      rw [tp_replaceAll_cons]
      have hlen : rest.length ≤ L := by
        simp only [List.length_cons, List.length_append] at hs
        omega
      by_cases hpre : n.isPrefixOf (m ++ rest) = true
      · have hmpre : m.isPrefixOf (m ++ rest) = true := tp_isPrefixOf_append_self m rest
        have hnm : n = m := by
          rcases tp_prefix_total n m (m ++ rest) hpre hmpre with h1 | h1
          · exact hpf n (List.mem_cons_self n ns) m hm h1
          · exact (hpf m hm n (List.mem_cons_self n ns) h1).symm
        have hcond : (('$' : Char) == '$' && n.isPrefixOf (m ++ rest)) = true := by
          simp [hpre]
        rw [hcond]
        simp only [if_true]
        subst hnm
        rw [List.drop_left]
        exact tp_goodText_append_left ns v _ hv (ihL rest hlen hrest)
      · have hmn : m ≠ n := by
          intro he
          subst he
          exact hpre (tp_isPrefixOf_append_self m rest)
        have hm2 : m ∈ ns := by
          rcases List.mem_cons.mp hm with he | h2
          · exact absurd he hmn
          · exact h2
        have hcond : (('$' : Char) == '$' && n.isPrefixOf (m ++ rest)) = false := by
          simp [hpre]
        rw [hcond]
        simp only [Bool.false_eq_true, if_false]
        rw [tp_replaceAll_shift n v m rest (hdoll m hm)]
        exact GoodText.tok m _ hm2 (ihL rest hlen hrest)

lemma tp_substAll_noDollar :
    ∀ (vars : List (List Char × List Char)) (s : List Char),
      (∀ nv ∈ vars, nv.1 ≠ [] ∧ '$' ∉ nv.1 ∧ '$' ∉ nv.2) →
      (∀ m1 ∈ vars.map Prod.fst, ∀ m2 ∈ vars.map Prod.fst,
        m1.isPrefixOf m2 = true → m1 = m2) →
      GoodText (vars.map Prod.fst) s →
      '$' ∉ substAll vars s := by
  intro vars
  induction vars with
  | nil =>
    intro s _ _ hg
    simpa [substAll] using tp_goodText_nil s (by simpa using hg)
  | cons nv rest ih =>
    intro s hvals hpf hg
    have hstep : GoodText (rest.map Prod.fst) (replaceAll '$' nv.1 nv.2 s) := by
      refine tp_goodText_step nv.1 (rest.map Prod.fst) nv.2 ?_ ?_ ?_ s.length s le_rfl ?_
      · intro m hm2
        rcases List.mem_cons.mp hm2 with rfl | hm3
        · exact (hvals nv (List.mem_cons_self nv rest)).2.1
        · obtain ⟨nv2, hnv2, rfl⟩ := List.mem_map.mp hm3
          exact (hvals nv2 (List.mem_cons_of_mem nv hnv2)).2.1
      · intro m1 hm1 m2 hm2
        exact hpf m1 (by simpa using hm1) m2 (by simpa using hm2)
      · exact (hvals nv (List.mem_cons_self nv rest)).2.2
      · simpa using hg
    have hsub : substAll (nv :: rest) s = substAll rest (replaceAll '$' nv.1 nv.2 s) := by
      simp [substAll]
    rw [hsub]
    refine ih _ ?_ ?_ hstep
    · intro nv2 h2
      exact hvals nv2 (List.mem_cons_of_mem nv h2)
    · intro m1 h1 m2 h2
      exact hpf m1 (by simp [h1]) m2 (by simp [h2])

lemma tp_containsSeq_mem (c : Char) (pat : List Char) :
    ∀ s : List Char, containsSeq (c :: pat) s = true → c ∈ s := by
  intro s
  induction s with
  | nil => intro h; simp [containsSeq] at h
  | cons b bs ih =>
    intro h
    rw [containsSeq, Bool.or_eq_true] at h
    rcases h with h | h
    · rw [tp_isPrefixOf_exists] at h
      obtain ⟨t, ht⟩ := h
      rw [List.cons_append] at ht
      injection ht with h1 h2
      subst h1
      exact List.mem_cons_self _ _
    · exact List.mem_cons_of_mem b (ih h)

lemma tp_noDollar_noToken (s n : List Char) (h : '$' ∉ s) :
    containsSeq ('$' :: n) s = false := by
  cases hc : containsSeq ('$' :: n) s with
  | false => rfl
  | true => exact absurd (tp_containsSeq_mem '$' n s hc) h

lemma tp_substParagraph_noVar (vars : List (List Char × List Char)) (p : Paragraph)
    (h : hasVariable vars (fullText p) = false) : substParagraph vars p = p := by
  by_cases hr : p.runs.isEmpty
  · simp [substParagraph, hr]
  · simp [substParagraph, hr, h]

lemma tp_paras_cells_subst (vars : List (List Char × List Char)) :
    ∀ cells : List TCell,
      ((cells.map fun c => { c with paras := c.paras.map (substParagraph vars) }).flatMap
          fun c => c.paras)
        = (cells.flatMap fun c => c.paras).map (substParagraph vars) := by
  intro cells
  induction cells with
  | nil => rfl
  | cons c cs ih => simp [List.flatMap_cons, List.map_append, ih]

lemma tp_paras_rows_subst (vars : List (List Char × List Char)) :
    ∀ rows : List TRow,
      ((rows.map fun r =>
          (⟨r.cells.map fun c => { c with paras := c.paras.map (substParagraph vars) }⟩
            : TRow)).flatMap
          fun r => r.cells.flatMap fun c => c.paras)
        = (rows.flatMap fun r => r.cells.flatMap fun c => c.paras).map
            (substParagraph vars) := by
  intro rows
  induction rows with
  | nil => rfl
  | cons r rs ih => simp [List.flatMap_cons, List.map_append, ih, tp_paras_cells_subst vars]

lemma tp_paragraphsOfElem_subst (vars : List (List Char × List Char)) (e : BodyElem) :
    paragraphsOfElem (substBodyElem vars e)
      = (paragraphsOfElem e).map (substParagraph vars) := by
  cases e with
  | p para => simp [substBodyElem, paragraphsOfElem]
  | tbl t =>
    simp only [substBodyElem, paragraphsOfElem, substTbl]
    exact tp_paras_rows_subst vars t.rows
  | sectPr => rfl
  | other => rfl

lemma tp_paragraphsOf_subst (vars : List (List Char × List Char)) :
    ∀ es : List BodyElem,
      paragraphsOf (substElements vars es) = (paragraphsOf es).map (substParagraph vars) := by
  intro es
  induction es with
  | nil => rfl
  | cons e rest ih =>
    simp only [substElements, List.map_cons, paragraphsOf, List.flatMap_cons,
      List.map_append, tp_paragraphsOfElem_subst]
    simp only [substElements, paragraphsOf] at ih
    rw [ih]

lemma tp_paras_cells_removeTab :
    ∀ cells : List TCell,
      ((cells.map fun c => { c with paras := c.paras.map removeTabBeforeLabel }).flatMap
          fun c => c.paras)
        = (cells.flatMap fun c => c.paras).map removeTabBeforeLabel := by
  intro cells
  induction cells with
  | nil => rfl
  | cons c cs ih => simp [List.flatMap_cons, List.map_append, ih]

lemma tp_paras_rows_removeTab :
    ∀ rows : List TRow,
      ((rows.map fun r =>
          (⟨r.cells.map fun c => { c with paras := c.paras.map removeTabBeforeLabel }⟩
            : TRow)).flatMap
          fun r => r.cells.flatMap fun c => c.paras)
        = (rows.flatMap fun r => r.cells.flatMap fun c => c.paras).map
            removeTabBeforeLabel := by
  intro rows
  induction rows with
  | nil => rfl
  | cons r rs ih => simp [List.flatMap_cons, List.map_append, ih, tp_paras_cells_removeTab]

lemma tp_paragraphsOf_removeTab :
    ∀ es : List BodyElem,
      paragraphsOf (removeTabElements es) = (paragraphsOf es).map removeTabBeforeLabel := by
  intro es
  induction es with
  | nil => rfl
  | cons e rest ih =>
    simp only [removeTabElements, List.map_cons, paragraphsOf, List.flatMap_cons,
      List.map_append]
    simp only [removeTabElements, paragraphsOf] at ih
    rw [ih]
    congr 1
    cases e with
    | p para => simp [paragraphsOfElem]
    | tbl t =>
      simp only [paragraphsOfElem, removeTabTbl]
      exact tp_paras_rows_removeTab t.rows
    | sectPr => rfl
    | other => rfl

lemma tp_paras_setRow (c1 c2 : Nat) :
    ∀ cells : List TCell,
      ((setRowCellWidths cells c1 c2).flatMap fun c => c.paras)
        = cells.flatMap fun c => c.paras := by
  intro cells
  rcases cells with _ | ⟨a, _ | ⟨b, cs⟩⟩ <;> simp [setRowCellWidths, setCellWidthT]

lemma tp_paras_widthTbl (t : Tbl) (a b : Nat) :
    paragraphsOfElem (BodyElem.tbl (setTableColumnWidths t a b))
      = paragraphsOfElem (BodyElem.tbl t) := by
  simp only [paragraphsOfElem, setTableColumnWidths]
  induction t.rows with
  | nil => rfl
  | cons r rs ih => simp [List.flatMap_cons, ih, tp_paras_setRow]

lemma tp_paras_widthFixStep (e : BodyElem) (ft : Bool) :
    paragraphsOfElem (widthFixStep e ft).1 = paragraphsOfElem e := by
  cases e <;> cases ft <;> simp [widthFixStep, tp_paras_widthTbl]

lemma tp_paragraphsOf_transformCover (vars : List (List Char × List Char)) :
    ∀ (es : List BodyElem) (ft : Bool),
      paragraphsOf (transformCover vars ft es)
        = (paragraphsOf es).map (substParagraph vars) := by
  intro es
  induction es with
  | nil => intro ft; rfl
  | cons e rest ih =>
    intro ft
    rw [transformCover]
    cases hws : widthFixStep (substBodyElem vars e) ft with
    | mk e2 ft2 =>
      simp only
      have hpe : paragraphsOfElem e2 = (paragraphsOfElem e).map (substParagraph vars) := by
        have h1 := tp_paras_widthFixStep (substBodyElem vars e) ft
        rw [hws] at h1
        replace h1 : paragraphsOfElem e2 = paragraphsOfElem (substBodyElem vars e) := h1
        rw [h1, tp_paragraphsOfElem_subst]
      simp only [paragraphsOf, List.flatMap_cons]
      simp only [paragraphsOf] at ih
      rw [hpe, ih ft2, List.map_append]

lemma tp_filterTab_text :
    ∀ items : List RunItem,
      (items.filter fun it => !isTabItem it).filterMap truthyText
        = items.filterMap truthyText := by
  intro items
  induction items with
  | nil => rfl
  | cons it rest ih =>
    rw [List.filter_cons]
    cases it with
    | text c sp =>
      rw [if_pos (by rfl)]
      rw [List.filterMap_cons, List.filterMap_cons]
      simp only [ih]
    | tab =>
      rw [if_neg (by simp [isTabItem])]
      exact ih
    | br ty =>
      rw [if_pos (by rfl)]
      rw [List.filterMap_cons, List.filterMap_cons]
      simp only [ih]
    | fldChar ty =>
      rw [if_pos (by rfl)]
      rw [List.filterMap_cons, List.filterMap_cons]
      simp only [ih]
    | instrText s2 =>
      rw [if_pos (by rfl)]
      rw [List.filterMap_cons, List.filterMap_cons]
      simp only [ih]

lemma tp_runText_removeTabs (r : Run) : runText (removeTabsFromRun r) = runText r := by
  simp [runText, removeTabsFromRun, tp_filterTab_text]

lemma tp_map_runText_fixRuns :
    ∀ runs : List Run, (fixRuns runs).map runText = runs.map runText := by
  intro runs
  induction runs with
  | nil => rfl
  | cons a tail ih =>
    cases tail with
    | nil =>
      by_cases hl : runHasLabel a = true <;> simp [fixRuns, hl, tp_runText_removeTabs]
    | cons b rest =>
      simp only [fixRuns, List.map_cons]
      rw [ih]
      by_cases hl : (runHasLabel a || runHasLabel b) = true <;>
        simp [hl, tp_runText_removeTabs]

lemma tp_fullText_removeTab (p : Paragraph) :
    fullText (removeTabBeforeLabel p) = fullText p := by
  unfold removeTabBeforeLabel
  by_cases h1 : p.runs.isEmpty
  · simp [h1]
  · by_cases h2 : containsSeq labelHanbaimei (fullText p) = true
    · simp only [h1, h2, Bool.false_eq_true, if_false, if_true]
      show fullText { p with runs := fixRuns p.runs } = fullText p
      simp only [fullText, tp_map_runText_fixRuns]
    · simp [h1, h2]

/-- C7 fails as stated: with the caller-supplied values DocCode ↦ X,
DocName ↦ N, Version ↦ $DocCode, the copied header text $Version is
substituted to $DocCode, a token of a known variable that remains in
the copied region of the output. -/
theorem claimC7_substitution_counterexample :
    containsSeq ('$' :: lit "DocCode")
      (fullText ((paragraphsOf (copyHeaderContent cexVars7 [BodyElem.p cexPara7])).headD
        ⟨none, []⟩)) = true := by decide

/-- C7 amended: provided every replacement value is free of dollar
signs, the configured names are nonempty, dollar-free and mutually
prefix-free, and every dollar sign in each source paragraph begins a
token of a configured variable, then no token of any configured
variable remains in any paragraph of the copied header content, nor in
any paragraph of a cover region transformed by the splice. -/
theorem claimC7_substitution_amended (vars : List (List Char × List Char))
    (hvals : ∀ nv ∈ vars, nv.1 ≠ [] ∧ '$' ∉ nv.1 ∧ '$' ∉ nv.2)
    (hpf : ∀ m1 ∈ vars.map Prod.fst, ∀ m2 ∈ vars.map Prod.fst,
      m1.isPrefixOf m2 = true → m1 = m2)
    (src : List BodyElem)
    (hgood : ∀ q ∈ paragraphsOf src, GoodText (vars.map Prod.fst) (fullText q)) :
    (∀ p ∈ paragraphsOf (copyHeaderContent vars src),
      ∀ nv ∈ vars, containsSeq ('$' :: nv.1) (fullText p) = false)
    ∧ ∀ p ∈ paragraphsOf (transformCover vars true src),
      ∀ nv ∈ vars, containsSeq ('$' :: nv.1) (fullText p) = false := by
  have key : ∀ q ∈ paragraphsOf src, ∀ nv ∈ vars,
      containsSeq ('$' :: nv.1) (fullText (substParagraph vars q)) = false := by
    intro q hq nv hnv
    cases hvar : hasVariable vars (fullText q) with
    | false =>
      rw [tp_substParagraph_noVar vars q hvar]
      have h2 := hvar
      simp only [hasVariable, List.any_eq_false] at h2
      simpa using h2 nv hnv
    | true =>
      rw [tp_fullText_substParagraph vars q hvar]
      exact tp_noDollar_noToken _ _
        (tp_substAll_noDollar vars (fullText q) hvals hpf (hgood q hq))
  constructor
  · intro p hp nv hnv
    rw [copyHeaderContent, tp_paragraphsOf_removeTab, tp_paragraphsOf_subst] at hp
    obtain ⟨p2, hp2, rfl⟩ := List.mem_map.mp hp
    obtain ⟨q, hq, rfl⟩ := List.mem_map.mp hp2
    rw [tp_fullText_removeTab]
    exact key q hq nv hnv
  · intro p hp nv hnv
    rw [tp_paragraphsOf_transformCover] at hp
    obtain ⟨q, hq, rfl⟩ := List.mem_map.mp hp
    exact key q hq nv hnv

/-- Witness for the amended C7 on a concrete header region whose only
dollar sign begins the DocCode token. -/
theorem claimC7_substitution_amended_witness :
    containsSeq ('$' :: lit "DocCode")
      (fullText ((paragraphsOf (copyHeaderContent demoVars [BodyElem.p goodPara7])).headD
        ⟨none, []⟩)) = false := by
  have hgood : ∀ q ∈ paragraphsOf [BodyElem.p goodPara7],
      GoodText (demoVars.map Prod.fst) (fullText q) := by
    intro q hq
    have hq2 : q = goodPara7 := by
      simpa [paragraphsOf, paragraphsOfElem] using hq
    subst hq2
    have hft : fullText goodPara7
        = 'D' :: 'o' :: 'c' :: ' ' :: ('$' :: (lit "DocCode" ++ [])) := by decide
    rw [hft]
    refine GoodText.cons _ _ (by decide) ?_
    refine GoodText.cons _ _ (by decide) ?_
    refine GoodText.cons _ _ (by decide) ?_
    refine GoodText.cons _ _ (by decide) ?_
    exact GoodText.tok (lit "DocCode") [] (by decide) GoodText.nil
  have hmem : (paragraphsOf (copyHeaderContent demoVars [BodyElem.p goodPara7])).headD
      ⟨none, []⟩ ∈ paragraphsOf (copyHeaderContent demoVars [BodyElem.p goodPara7]) := by
    decide
  exact (claimC7_substitution_amended demoVars (by decide) (by decide)
      [BodyElem.p goodPara7] hgood).1 _ hmem (lit "DocCode", lit "D-001") (by decide)

end Tool4Word
